import Mathlib

/-!
Shallow embedding of the Strawberry filter engine: the search-string
grammar (`src/filterparser/filterparser.cpp`,
`src/collection/collectionfilterparser.cpp`,
`src/playlist/playlistfilterparser.cpp`), the comparator library
(`src/filterparser/filterparsersearchcomparators.h`), the expression
trees and their evaluators, and the hash-keyed parse cache
(`src/collection/collectionfilter.cpp`).

Strings (`QString`) are modelled as `List Char`; the few Qt primitives
the code uses (`isSpace`, `toLower`, `contains`, `toInt`, `toFloat`,
lexical comparison, `QString::number`) are given explicit models below,
covering the ASCII/decimal forms the engine manipulates.
-/

namespace StrawberryFilter

/-- Model of `QChar::isSpace` on the ASCII range: the whitespace
characters the tokenizer skips. -/
def isSpaceChar (c : Char) : Bool :=
  decide (c = ' ' ∨ c = '\t' ∨ c = '\n' ∨ c = '\x0b' ∨ c = '\x0c' ∨ c = '\r')

/-- Model of `QChar::toLower` on the ASCII range. -/
def lowerChar (c : Char) : Char :=
  if 'A' ≤ c ∧ c ≤ 'Z' then Char.ofNat (c.toNat + 32) else c

/-- Model of `QString::toLower`. -/
def toLowerStr (s : List Char) : List Char := s.map lowerChar

/-- Helper for `QString::startsWith`, used to model substring search. -/
def startsWithStr : List Char → List Char → Bool
  | _, [] => true
  | [], _ :: _ => false
  | a :: as, b :: bs => decide (a = b) && startsWithStr as bs

/-- Case-sensitive substring containment on char lists. -/
def containsStr : List Char → List Char → Bool
  | [], needle => needle.isEmpty
  | h :: t, needle => startsWithStr (h :: t) needle || containsStr t needle

/-- Model of `QString::contains(needle, Qt::CaseInsensitive)`: the case
fold is modelled by lowering both sides. -/
def containsCI (hay needle : List Char) : Bool :=
  containsStr (toLowerStr hay) (toLowerStr needle)

/-- Model of `QString::operator<`: lexicographic comparison by
character code. -/
def ltStr : List Char → List Char → Bool
  | [], [] => false
  | [], _ :: _ => true
  | _ :: _, [] => false
  | a :: as, b :: bs =>
    if a.toNat < b.toNat then true
    else if b.toNat < a.toNat then false
    else ltStr as bs

/-- Model of `QString::operator<=` (`a <= b` iff not `b < a`). -/
def leStr (a b : List Char) : Bool := !(ltStr b a)

/-- Accumulate the value of a decimal digit run; any non-digit makes
the whole parse fail. -/
def digitsVal : List Char → Nat → Option Nat
  | [], acc => some acc
  | c :: r, acc =>
    if '0' ≤ c ∧ c ≤ '9' then digitsVal r (acc * 10 + (c.toNat - '0'.toNat))
    else none

/-- Value of a non-empty all-digit run. -/
def digitsToNat : List Char → Option Nat
  | [] => none
  | l => digitsVal l 0

/-- Strip leading and trailing whitespace, as `QString::toInt` and
`QString::toFloat` do before parsing. -/
def trimStr (s : List Char) : List Char :=
  ((s.dropWhile isSpaceChar).reverse.dropWhile isSpaceChar).reverse

/-- Signed-integer parse of a whole (trimmed) string: optional sign
followed by at least one digit, nothing else. -/
def strToIntCore (s : List Char) : Option Int :=
  match trimStr s with
  | '-' :: r => (digitsToNat r).map (fun n => -(n : Int))
  | '+' :: r => (digitsToNat r).map (fun n => (n : Int))
  | r => (digitsToNat r).map (fun n => (n : Int))

/-- Model of `QString::toInt`: the whole string must parse as a decimal
integer that fits a 32-bit `int`; every failure (including overflow)
yields 0. -/
def qtToInt (s : List Char) : Int :=
  match strToIntCore s with
  | some v => if -(2 ^ 31) ≤ v ∧ v < 2 ^ 31 then v else 0
  | none => 0

/-- Decimal parse of an unsigned `intpart[.fracpart]` form as an exact
rational. -/
def ratOfParts (ip fp : List Char) : Option Rat :=
  match ip, fp with
  | [], [] => none
  | ip, [] => (digitsToNat ip).map (fun n => (n : Rat))
  | [], fp => (digitsToNat fp).map (fun n => (n : Rat) / ((10 : Rat) ^ fp.length))
  | ip, fp =>
    match digitsToNat ip, digitsToNat fp with
    | some i, some f => some ((i : Rat) + (f : Rat) / ((10 : Rat) ^ fp.length))
    | _, _ => none

/-- Split a string at its first '.', if any. -/
def splitDot : List Char → (List Char × Option (List Char))
  | [] => ([], none)
  | c :: r =>
    if c = '.' then ([], some r)
    else
      let (ip, fp) := splitDot r
      (c :: ip, fp)

/-- Model of `QString::toFloat` on plain decimal forms (the only forms
the engine produces or compares); floating-point values are modelled as
exact rationals, and every parse failure yields 0, matching the Qt
behaviour the code relies on (spec §7). -/
def qtToRat (s : List Char) : Rat :=
  let t := trimStr s
  let core : Option Rat :=
    match t with
    | '-' :: r => (let (ip, fp) := splitDot r; ratOfParts ip (fp.getD [])).map (fun q => -q)
    | '+' :: r => (let (ip, fp) := splitDot r; ratOfParts ip (fp.getD []))
    | r => (let (ip, fp) := splitDot r; ratOfParts ip (fp.getD []))
  core.getD 0

/-- Model of `QString::number` on integers (decimal rendering). -/
def intToStr (i : Int) : List Char := (toString i).data

/-- The comparator library of `filterparsersearchcomparators.h`: one
constructor per concrete `FilterParserSearchTermComparator` subclass,
each holding its captured operand, plus the drop-tail decorator. -/
inductive Cmp where
  | defaultCmp (t : List Char)
  | eqCmp (t : List Char)
  | neCmp (t : List Char)
  | lexGt (t : List Char)
  | lexGe (t : List Char)
  | lexLt (t : List Char)
  | lexLe (t : List Char)
  | floatEq (v : Rat)
  | floatNe (v : Rat)
  | floatGt (v : Rat)
  | floatGe (v : Rat)
  | floatLt (v : Rat)
  | floatLe (v : Rat)
  | gtCmp (v : Int)
  | geCmp (v : Int)
  | ltCmp (v : Int)
  | leCmp (v : Int)
  | dropTail (inner : Cmp)
  deriving Repr

/-- Evaluation of each comparator's `Matches(element)` method, copied
branch by branch from `filterparsersearchcomparators.h`. -/
def cmpMatches : Cmp → List Char → Bool
  | .defaultCmp t, e => containsCI e t
  | .eqCmp t, e => decide (t = e)
  | .neCmp t, e => decide (t ≠ e)
  | .lexGt t, e => ltStr t e
  | .lexGe t, e => leStr t e
  | .lexLt t, e => ltStr e t
  | .lexLe t, e => leStr e t
  | .floatEq v, e => decide (v = qtToRat e)
  | .floatNe v, e => decide (v ≠ qtToRat e)
  | .floatGt v, e => decide (v < qtToRat e)
  | .floatGe v, e => decide (v ≤ qtToRat e)
  | .floatLt v, e => decide (qtToRat e < v)
  | .floatLe v, e => decide (qtToRat e ≤ v)
  | .gtCmp v, e => decide (v < qtToInt e)
  | .geCmp v, e => decide (v ≤ qtToInt e)
  | .ltCmp v, e => decide (qtToInt e < v)
  | .leCmp v, e => decide (qtToInt e ≤ v)
  | .dropTail c, e =>
    if e.length > 9 then cmpMatches c (e.take (e.length - 9))
    else cmpMatches c e

/-- Model of a `Song` record, holding the fields `DataFromField`
(`collectionfilterparser.cpp`) reads.  Text fields store their text
form directly (the `QVariant` round-trip of a string is the string
itself; `effective_albumartist` is stored pre-resolved, and `rating`'s
float-to-text rendering is stored as text since no comparison in the
engine reads it back numerically); integer fields store the integers
whose `QVariant::toString` is their decimal rendering. -/
structure Song where
  albumartist : List Char
  artist : List Char
  album : List Char
  title : List Char
  composer : List Char
  performer : List Char
  grouping : List Char
  genre : List Char
  comment : List Char
  track : Int
  year : Int
  length_nanosec : Int
  samplerate : Int
  bitdepth : Int
  bitrate : Int
  rating : List Char
  playcount : Int
  skipcount : Int

/-- Model of the anonymous-namespace `DataFromField` of
`collectionfilterparser.cpp` (composed with `QVariant::toString`): the
text form of the named field, the empty string for an unknown name. -/
def DataFromField (field : List Char) (m : Song) : List Char :=
  if field = ("albumartist").data then m.albumartist
  else if field = ("artist").data then m.artist
  else if field = ("album").data then m.album
  else if field = ("title").data then m.title
  else if field = ("composer").data then m.composer
  else if field = ("performer").data then m.performer
  else if field = ("grouping").data then m.grouping
  else if field = ("genre").data then m.genre
  else if field = ("comment").data then m.comment
  else if field = ("track").data then intToStr m.track
  else if field = ("year").data then intToStr m.year
  else if field = ("length").data then intToStr m.length_nanosec
  else if field = ("samplerate").data then intToStr m.samplerate
  else if field = ("bitdepth").data then intToStr m.bitdepth
  else if field = ("bitrate").data then intToStr m.bitrate
  else if field = ("rating").data then m.rating
  else if field = ("playcount").data then intToStr m.playcount
  else if field = ("skipcount").data then intToStr m.skipcount
  else []

/-- Modelled from the spec: `Song::kSearchColumns` (declared in
`core/song.h`, which is not part of the excerpt).  Per §2/§4.1 it is
the registry's default search-all field set; its members are exactly
the field names `DataFromField` (which is in the excerpt) resolves. -/
def kSearchColumns : List (List Char) :=
  [("albumartist").data, ("artist").data, ("album").data, ("title").data,
   ("composer").data, ("performer").data, ("grouping").data, ("genre").data,
   ("comment").data, ("track").data, ("year").data, ("length").data,
   ("samplerate").data, ("bitdepth").data, ("bitrate").data, ("rating").data,
   ("playcount").data, ("skipcount").data]

/-- Modelled from the spec: `Song::kNumericalSearchColumns` (declared
in `core/song.h`, not in the excerpt).  Per §2/§4.2 these are the
columns of `Integer` or `Duration` kind. -/
def kNumericalSearchColumns : List (List Char) :=
  [("track").data, ("year").data, ("length").data, ("samplerate").data,
   ("bitdepth").data, ("bitrate").data, ("playcount").data, ("skipcount").data]

/-- Modelled from the spec: `Utilities::ParseSearchTime`
(`utilities/searchparserutils.cpp`, not in the excerpt).  Per §4.2 the
`Duration` operand is the search text read as a whole number of
seconds, unparsable text yielding 0 (§7). -/
def parseSearchTime (s : List Char) : Int := qtToInt s

/-- Modelled from the spec: `Utilities::ParseSearchRating`
(`utilities/searchparserutils.cpp`, not in the excerpt).  Per §4.2 the
`Rating` operand is the search text read as a float, unparsable text
yielding 0 (§7); the exact scale mapping is a registry concern the
spec leaves open, and no claim depends on it. -/
def parseSearchRating (s : List Char) : Rat := qtToRat s

/-- The collection expression tree: one constructor per
`CollectionFilterTree` subclass of `collectionfilterparser.{h,cpp}`
(`CollectionNopFilter`, `CollectionOrFilter`, `CollectionAndFilter`,
`CollectionNotFilter`, `CollectionFilterColumnTerm`,
`CollectionFilterTerm`). -/
inductive CTree where
  | nop
  | orF (children : List CTree)
  | andF (children : List CTree)
  | notF (child : CTree)
  | columnTerm (column : List Char) (cmp : Cmp)
  | term (cmp : Cmp) (columns : List (List Char))
  deriving Repr

mutual
/-- Evaluation `accept(song)` of a collection tree, branch for branch:
`Or` is `std::any_of(accept)`, `And` is `!any_of(!accept)`, a column
term applies its comparator to that field's text form, a plain term
accepts if any of its columns' text forms match. -/
def acceptSong : CTree → Song → Bool
  | .nop, _ => true
  | .orF cs, s => anyAccept cs s
  | .andF cs, s => !(anyRejects cs s)
  | .notF c, s => !(acceptSong c s)
  | .columnTerm col cmp, s => cmpMatches cmp (DataFromField col s)
  | .term cmp cols, s => cols.any (fun col => cmpMatches cmp (DataFromField col s))

/-- Model of `std::any_of(children, accept)`. -/
def anyAccept : List CTree → Song → Bool
  | [], _ => false
  | c :: cs, s => acceptSong c s || anyAccept cs s

/-- Model of `std::any_of(children, not accept)`. -/
def anyRejects : List CTree → Song → Bool
  | [], _ => false
  | c :: cs, s => !(acceptSong c s) || anyRejects cs s
end

/-- The playlist expression tree: one constructor per
`PlaylistFilterTree` subclass of `playlistfilterparser.{h,cpp}`. -/
inductive PTree where
  | nop
  | orF (children : List PTree)
  | andF (children : List PTree)
  | notF (child : PTree)
  | columnTerm (column : Int) (cmp : Cmp)
  | term (cmp : Cmp) (columns : List Int)
  deriving Repr

/-- A playlist record as the evaluator sees it: the text form
`model->index(row, col, parent).data().toString()` of each column.  The
`(row, parent, model)` triple is folded into this one accessor. -/
def PRow : Type := Int → List Char

mutual
/-- Evaluation `accept(row, parent, model)` of a playlist tree; note
the playlist terms lower-case the model text before matching
(`idx.data().toString().toLower()`), unlike the collection terms. -/
def acceptRow : PTree → PRow → Bool
  | .nop, _ => true
  | .orF cs, r => anyAcceptRow cs r
  | .andF cs, r => !(anyRejectsRow cs r)
  | .notF c, r => !(acceptRow c r)
  | .columnTerm col cmp, r => cmpMatches cmp (toLowerStr (r col))
  | .term cmp cols, r => cols.any (fun col => cmpMatches cmp (toLowerStr (r col)))

/-- Model of `std::any_of(children, accept)` for playlist trees. -/
def anyAcceptRow : List PTree → PRow → Bool
  | [], _ => false
  | c :: cs, r => acceptRow c r || anyAcceptRow cs r

/-- Model of `std::any_of(children, not accept)` for playlist trees. -/
def anyRejectsRow : List PTree → PRow → Bool
  | [], _ => false
  | c :: cs, r => !(acceptRow c r) || anyRejectsRow cs r
end

/-- Model of `CollectionFilterParser::createSearchTermTreeNode`
(`collectionfilterparser.cpp`), branch for branch. -/
def createSearchTermTreeNodeC (column pre search : List Char) : CTree :=
  if search = [] ∧ pre ≠ ['='] then .nop
  else
    let cmp : Cmp :=
      if column = ("rating").data then
        let v := parseSearchRating search
        if pre = ['='] then .floatEq v
        else if pre = ('!' :: ['=']) ∨ pre = ('<' :: ['>']) then .floatNe v
        else if pre = ['>'] then .floatGt v
        else if pre = ('>' :: ['=']) then .floatGe v
        else if pre = ['<'] then .floatLt v
        else if pre = ('<' :: ['=']) then .floatLe v
        else .floatEq v
      else if pre = ('!' :: ['=']) ∨ pre = ('<' :: ['>']) then .neCmp search
      else if column ≠ [] ∧ column ∈ kSearchColumns ∧ column ∈ kNumericalSearchColumns then
        let searchValue : Int :=
          if column = ("length").data then parseSearchTime search else qtToInt search
        if pre = ['>'] then .gtCmp searchValue
        else if pre = ('>' :: ['=']) then .geCmp searchValue
        else if pre = ['<'] then .ltCmp searchValue
        else if pre = ('<' :: ['=']) then .leCmp searchValue
        else .eqCmp (intToStr searchValue)
      else
        if pre = ['='] then .eqCmp search
        else if pre = ['>'] then .lexGt search
        else if pre = ('>' :: ['=']) then .lexGe search
        else if pre = ['<'] then .lexLt search
        else if pre = ('<' :: ['=']) then .lexLe search
        else .defaultCmp search
    if column ∈ kSearchColumns then
      let cmp := if column = ("length").data then Cmp.dropTail cmp else cmp
      .columnTerm column cmp
    else .term cmp kSearchColumns

/-- Modelled from the spec: the value of `Playlist::Column::Length`
(`playlist/playlist.h`, not in the excerpt).  Only its distinctness
from the other column indices matters to the engine. -/
def playlistLengthColumn : Int := 9

/-- Modelled from the spec: the value of `Playlist::Column::Rating`
(`playlist/playlist.h`, not in the excerpt). -/
def playlistRatingColumn : Int := 24

/-- The caller-supplied playlist field registry (spec §6):
`PlaylistFilterParser` is constructed with a `QMap<QString, int>` of
column names to column indices and a `QSet<int>` of the numerical
column indices. -/
structure PlaylistConfig where
  columns : List (List Char × Int)
  numerical : List Int

/-- Model of `QMap<QString, int>::operator[] const` / `value`: the
mapped value, or a default-constructed `int` (0) for an absent key. -/
def qmapValue (m : List (List Char × Int)) (k : List Char) : Int :=
  match m.find? (fun p => p.1 = k) with
  | some p => p.2
  | none => 0

/-- Model of `QMap::contains`. -/
def qmapContains (m : List (List Char × Int)) (k : List Char) : Bool :=
  (m.find? (fun p => p.1 = k)).isSome

/-- Model of `PlaylistFilterParser::createSearchTermTreeNode`
(`playlistfilterparser.cpp`), branch for branch.  `columns_.values()`
is modelled as the map's value list (`QMap::values` returns them
key-sorted; only membership and emptiness are ever observed). -/
def createSearchTermTreeNodeP (cfg : PlaylistConfig) (column pre search : List Char) : PTree :=
  if search = [] ∧ pre ≠ ['='] then .nop
  else
    let cmp : Cmp :=
      if qmapValue cfg.columns column = playlistRatingColumn then
        let v := parseSearchRating search
        if pre = ['='] then .floatEq v
        else if pre = ('!' :: ['=']) ∨ pre = ('<' :: ['>']) then .floatNe v
        else if pre = ['>'] then .floatGt v
        else if pre = ('>' :: ['=']) then .floatGe v
        else if pre = ['<'] then .floatLt v
        else if pre = ('<' :: ['=']) then .floatLe v
        else .floatEq v
      else if pre = ('!' :: ['=']) ∨ pre = ('<' :: ['>']) then .neCmp search
      else if column ≠ [] ∧ qmapContains cfg.columns column = true ∧
              qmapValue cfg.columns column ∈ cfg.numerical then
        let searchValue : Int :=
          if qmapValue cfg.columns column = playlistLengthColumn then parseSearchTime search
          else qtToInt search
        if pre = ['>'] then .gtCmp searchValue
        else if pre = ('>' :: ['=']) then .geCmp searchValue
        else if pre = ['<'] then .ltCmp searchValue
        else if pre = ('<' :: ['=']) then .leCmp searchValue
        else .eqCmp (intToStr searchValue)
      else
        if pre = ['='] then .eqCmp search
        else if pre = ['>'] then .lexGt search
        else if pre = ('>' :: ['=']) then .lexGe search
        else if pre = ['<'] then .lexLt search
        else if pre = ('<' :: ['=']) then .lexLe search
        else .defaultCmp search
    if qmapContains cfg.columns column then
      let cmp :=
        if qmapValue cfg.columns column = playlistLengthColumn then Cmp.dropTail cmp else cmp
      .columnTerm (qmapValue cfg.columns column) cmp
    else .term cmp (cfg.columns.map Prod.snd)

/-- The mutable scan state of `FilterParser` (`filterparser.h`): the
remaining input `iter_ .. end_` and the carry buffer `buf_`. -/
structure PState where
  inp : List Char
  buf : List Char
  deriving Repr

/-- Model of `FilterParser::advance`: skip whitespace. -/
def advance (st : PState) : PState :=
  ⟨st.inp.dropWhile isSpaceChar, st.buf⟩

/-- Model of `FilterParser::checkAnd` (`filterparser.cpp`): try to read
a bare `AND` followed by whitespace, '-' or '('.  Characters examined
are consumed and appended to the carry buffer; on success the buffer is
cleared and whitespace skipped, on failure the partially consumed
characters stay in the buffer. -/
def checkAnd (st : PState) : Bool × PState :=
  match st.inp with
  | [] => (false, st)
  | c0 :: r1 =>
    if c0 = 'A' then
      let st1 : PState := ⟨r1, st.buf ++ [c0]⟩
      match r1 with
      | [] => (false, st1)
      | c1 :: r2 =>
        if c1 = 'N' then
          let st2 : PState := ⟨r2, st1.buf ++ [c1]⟩
          match r2 with
          | [] => (false, st2)
          | c2 :: r3 =>
            if c2 = 'D' then
              let st3 : PState := ⟨r3, st2.buf ++ [c2]⟩
              match r3 with
              | [] => (false, st3)
              | c3 :: _ =>
                if isSpaceChar c3 = true ∨ c3 = '-' ∨ c3 = '(' then
                  (true, advance ⟨r3, []⟩)
                else (false, st3)
            else (false, st2)
        else (false, st1)
    else (false, st)

/-- Model of `FilterParser::checkOr` (`filterparser.cpp`): when the
carry buffer is non-empty, it is recognized as `OR` by content alone;
otherwise a bare `OR` followed by whitespace, '-' or '(' is read from
the input.  With `stepOver` the buffer is cleared and whitespace
skipped on success. -/
def checkOr (stepOver : Bool) (st : PState) : Bool × PState :=
  if st.buf ≠ [] then
    if st.buf = ('O' :: ['R']) then
      (true, if stepOver then advance ⟨st.inp, []⟩ else st)
    else (false, st)
  else
    match st.inp with
    | [] => (false, st)
    | c0 :: r1 =>
      if c0 = 'O' then
        let st1 : PState := ⟨r1, st.buf ++ [c0]⟩
        match r1 with
        | [] => (false, st1)
        | c1 :: r2 =>
          if c1 = 'R' then
            let st2 : PState := ⟨r2, st1.buf ++ [c1]⟩
            match r2 with
            | [] => (false, st2)
            | c2 :: _ =>
              if isSpaceChar c2 = true ∨ c2 = '-' ∨ c2 = '(' then
                (true, if stepOver then advance ⟨r2, []⟩ else st2)
              else (false, st2)
          else (false, st1)
      else (false, st)

/-- The character-consuming loop of `parseSearchTerm` (identical in
`collectionfilterparser.cpp` and `playlistfilterparser.cpp`): scans
forward collecting the column name (lower-cased at the first ':' while
no column is set), a comparison prefix (only while the buffer is
empty), and search text into the buffer, honouring quotes; it stops at
whitespace, '(', ')' or '-' outside quotes, leaving that character in
the input.  Returns (remaining input, buffer, column, prefix). -/
def termLoop : List Char → List Char → List Char → List Char → Bool →
    List Char × List Char × List Char × List Char
  | [], buf, column, pre, _ => ([], buf, column, pre)
  | c :: rest, buf, column, pre, inQuotes =>
    if inQuotes then
      if c = '"' then termLoop rest buf column pre false
      else termLoop rest (buf ++ [c]) column pre true
    else
      if c = '"' then termLoop rest buf column pre true
      else if column = [] ∧ c = ':' then termLoop rest [] (toLowerStr buf) [] false
      else if isSpaceChar c = true ∨ c = '(' ∨ c = ')' ∨ c = '-' then
        (c :: rest, buf, column, pre)
      else if buf = [] then
        if pre = [] ∧ (c = '>' ∨ c = '<' ∨ c = '=' ∨ c = '!') then
          termLoop rest buf column (pre ++ [c]) false
        else if pre ≠ ['='] ∧ c = '=' then
          termLoop rest buf column (pre ++ [c]) false
        else termLoop rest (buf ++ [c]) column pre false
      else termLoop rest (buf ++ [c]) column pre false

/-- The handful of tree-building operations in which the two otherwise
line-identical recursive-descent parsers differ (spec §2: the engine is
generic over the record shape). -/
structure TreeOps (α : Type) where
  nop : α
  isNop : α → Bool
  mkOr : List α → α
  mkAnd : List α → α
  mkNot : α → α
  mkTerm : List Char → List Char → List Char → α

/-- Model of `parseSearchTerm`: run the scan loop from the current
state (the carry buffer seeds the scan), lower-case the collected
search text, clear the buffer, and build the term node. -/
def parseSearchTermF {α : Type} (ops : TreeOps α) (st : PState) : α × PState :=
  match termLoop st.inp st.buf [] [] false with
  | (inp2, buf2, column, pre) => (ops.mkTerm column pre (toLowerStr buf2), ⟨inp2, []⟩)

mutual
/-- Model of `parseOrGroup` (identical in both parsers): at end of
input a `Nop` filter; otherwise an `Or` group seeded with one and-group
followed by the `while (checkOr())` loop.  The `Nat` argument is
explicit fuel standing for the C++ recursion; totality at the fuel
used by `runParse` is proved below. -/
def pOrGroup {α : Type} (ops : TreeOps α) : Nat → PState → Option (α × PState)
  | 0, _ => none
  | f + 1, st =>
    let st := advance st
    if st.inp = [] then some (ops.nop, st)
    else
      match pAndGroup ops f st with
      | none => none
      | some (t, st1) => pOrLoop ops f [t] (advance st1)

/-- The `while (checkOr()) { group->add(parseAndGroup()); advance(); }`
loop of `parseOrGroup`, carrying the accumulated children. -/
def pOrLoop {α : Type} (ops : TreeOps α) : Nat → List α → PState → Option (α × PState)
  | 0, _, _ => none
  | f + 1, acc, st =>
    match checkOr true st with
    | (true, st1) =>
      match pAndGroup ops f st1 with
      | none => none
      | some (t, st2) => pOrLoop ops f (acc ++ [t]) (advance st2)
    | (false, st1) => some (ops.mkOr acc, st1)

/-- Model of `parseAndGroup`: at end of input a `Nop` filter, otherwise
the do-while loop collecting search expressions. -/
def pAndGroup {α : Type} (ops : TreeOps α) : Nat → PState → Option (α × PState)
  | 0, _ => none
  | f + 1, st =>
    let st := advance st
    if st.inp = [] then some (ops.nop, st)
    else pAndLoop ops f [] st

/-- The do-while body of `parseAndGroup`: add a search expression, then
break on ')' or a pending `OR` (checked without stepping over), step
over a bare `AND` if present, and loop while input remains. -/
def pAndLoop {α : Type} (ops : TreeOps α) : Nat → List α → PState → Option (α × PState)
  | 0, _, _ => none
  | f + 1, acc, st =>
    match pSexpr ops f st with
    | none => none
    | some (t, st1) =>
      let acc := acc ++ [t]
      let st2 := advance st1
      if st2.inp.head? = some ')' then some (ops.mkAnd acc, st2)
      else
        match checkOr false st2 with
        | (true, st3) => some (ops.mkAnd acc, st3)
        | (false, st3) =>
          let st4 := (checkAnd st3).2
          if st4.inp = [] then some (ops.mkAnd acc, st4)
          else pAndLoop ops f acc st4

/-- Model of `parseSearchExpression`: a parenthesized or-group (the
closing parenthesis optional), a '-'-negated sub-expression (with the
negation dropped when the sub-expression is the `Nop` filter), or a
search term. -/
def pSexpr {α : Type} (ops : TreeOps α) : Nat → PState → Option (α × PState)
  | 0, _ => none
  | f + 1, st =>
    let st := advance st
    match st.inp with
    | [] => some (ops.nop, st)
    | c :: rest =>
      if c = '(' then
        match pOrGroup ops f (advance ⟨rest, st.buf⟩) with
        | none => none
        | some (t, st2) =>
          let st3 := advance st2
          let st4 : PState :=
            match st3.inp with
            | ')' :: r => ⟨r, st3.buf⟩
            | _ => st3
          some (t, st4)
      else if c = '-' then
        match pSexpr ops f ⟨rest, st.buf⟩ with
        | none => none
        | some (t, st1) =>
          if ops.isNop t then some (t, st1) else some (ops.mkNot t, st1)
      else some (parseSearchTermF ops st)
end

/-- The measure that shrinks across the scan: twice the remaining input
plus one for a non-empty carry buffer. -/
def mu (st : PState) : Nat :=
  2 * st.inp.length + (if st.buf = [] then 0 else 1)

/-- Fuel sufficient for a whole parse of `s`, per the totality theorem
below. -/
def parseFuel (s : List Char) : Nat := 8 * s.length + 4

/-- Model of `parse()` (identical in both parsers): point the scan at
the whole filter string with an empty carry buffer and parse an
or-group. -/
def runParse {α : Type} (ops : TreeOps α) (s : List Char) : Option α :=
  (pOrGroup ops (parseFuel s) ⟨s, []⟩).map Prod.fst

/-- The `TreeOps` instance tying the generic parser to the collection
node classes of `collectionfilterparser.cpp`. -/
def collectionOps : TreeOps CTree where
  nop := .nop
  isNop := fun t => match t with | .nop => true | _ => false
  mkOr := .orF
  mkAnd := .andF
  mkNot := .notF
  mkTerm := createSearchTermTreeNodeC

/-- The `TreeOps` instance tying the generic parser to the playlist
node classes of `playlistfilterparser.cpp`. -/
def playlistOps (cfg : PlaylistConfig) : TreeOps PTree where
  nop := .nop
  isNop := fun t => match t with | .nop => true | _ => false
  mkOr := .orF
  mkAnd := .andF
  mkNot := .notF
  mkTerm := createSearchTermTreeNodeP cfg

/-- Model of `CollectionFilterParser::parse`. -/
def collectionParse (s : List Char) : Option CTree := runParse collectionOps s

/-- Model of `PlaylistFilterParser::parse`. -/
def playlistParse (cfg : PlaylistConfig) (s : List Char) : Option PTree :=
  runParse (playlistOps cfg) s

/-- Total wrapper around `collectionParse`; the default branch is dead
by the totality theorem below. -/
def collectionParseT (s : List Char) : CTree := (collectionParse s).getD .nop

/-- Total wrapper around `playlistParse`. -/
def playlistParseT (cfg : PlaylistConfig) (s : List Char) : PTree :=
  (playlistParse cfg s).getD .nop

/-- The cached parse of `CollectionFilter` (`collectionfilter.h`): the
hash of the last filter string and the tree parsed from it. -/
structure CacheState where
  query_hash : Nat
  filter_tree : CTree

/-- Model of the cache section of `CollectionFilter::filterAcceptsRow`
(`collectionfilter.cpp` lines 60-65): hash the incoming filter string;
when the hash differs from the stored one, parse the string and store
the new hash and tree, otherwise leave the state untouched.  The hash
function (`qHash`, Qt library code) is a parameter. -/
def cacheStep (qhash : List Char → Nat) (st : CacheState) (fs : List Char) : CacheState :=
  if qhash fs ≠ st.query_hash then ⟨qhash fs, collectionParseT fs⟩ else st

/-- Model of the tail of `CollectionFilter::filterAcceptsRow` for a
valid song row with a non-empty filter string: update the cache, then
evaluate the (possibly reused) tree on the song's metadata.  Returns
the new cache state together with the row's acceptance. -/
def filterAcceptsRowModel (qhash : List Char → Nat) (st : CacheState) (fs : List Char)
    (song : Song) : CacheState × Bool :=
  let st2 := cacheStep qhash st fs
  (st2, acceptSong st2.filter_tree song)

section MuLemmas

/-- Arithmetic form of the measure. -/
theorem mu_mk (inp buf : List Char) :
    mu ⟨inp, buf⟩ = 2 * inp.length + (if buf = [] then 0 else 1) := rfl

/-- Skipping whitespace never grows the measure. -/
theorem mu_advance_le (st : PState) : mu (advance st) ≤ mu st := by
  have h : (st.inp.dropWhile isSpaceChar).length ≤ st.inp.length :=
    (List.dropWhile_suffix isSpaceChar).length_le
  simp only [mu, advance]
  omega

/-- Skipping whitespace either does nothing or strictly shrinks the
measure. -/
theorem advance_cases (st : PState) : advance st = st ∨ mu (advance st) < mu st := by
  obtain ⟨inp, buf⟩ := st
  match inp with
  | [] => left; rfl
  | c :: r =>
    by_cases h : isSpaceChar c = true
    · right
      have hle := (List.dropWhile_suffix (l := r) isSpaceChar).length_le
      simp only [advance, List.dropWhile_cons, h, if_true, mu_mk]
      simp only [List.length_cons]
      omega
    · left
      simp [advance, List.dropWhile_cons, h]

/-- Consuming a non-empty run of characters into the buffer strictly
shrinks the measure. -/
theorem mu_buf_push_lt (pre r buf : List Char) (h : pre ≠ []) :
    mu ⟨r, buf ++ pre⟩ < mu ⟨pre ++ r, buf⟩ := by
  have h1 : buf ++ pre ≠ [] := by simp [h]
  have h2 : 1 ≤ pre.length := List.length_pos.mpr h
  simp only [mu_mk, List.length_append, if_neg h1]
  by_cases hb : buf = [] <;> simp only [hb, if_pos, if_neg] <;> simp <;> omega

/-- Consuming a non-empty run and then clearing the buffer and skipping
whitespace strictly shrinks the measure. -/
theorem mu_clear_advance_lt (pre r buf : List Char) (h : pre ≠ []) :
    mu (advance ⟨r, []⟩) < mu ⟨pre ++ r, buf⟩ := by
  have h1 := mu_advance_le ⟨r, []⟩
  have h2 : mu (⟨r, []⟩ : PState) = 2 * r.length := by simp [mu_mk]
  have h3 : 1 ≤ pre.length := List.length_pos.mpr h
  simp only [mu_mk, List.length_append]
  by_cases hb : buf = [] <;> simp only [hb, if_pos, if_neg] <;> omega

/-- `checkAnd` leaves the state untouched or strictly shrinks the
measure (it consumes every character it examines). -/
theorem checkAnd_cases (st : PState) :
    (checkAnd st).2 = st ∨ mu (checkAnd st).2 < mu st := by
  obtain ⟨inp, buf⟩ := st
  match inp with
  | [] => left; rfl
  | c0 :: r1 =>
    by_cases h0 : c0 = 'A'
    case neg => left; simp [checkAnd, h0]
    subst h0
    match r1 with
    | [] =>
      right
      simpa [checkAnd] using mu_buf_push_lt ['A'] [] buf (by simp)
    | c1 :: r2 =>
      by_cases h1 : c1 = 'N'
      case neg =>
        right
        simpa [checkAnd, h1] using mu_buf_push_lt ['A'] (c1 :: r2) buf (by simp)
      subst h1
      match r2 with
      | [] =>
        right
        simpa [checkAnd] using mu_buf_push_lt ['A', 'N'] [] buf (by simp)
      | c2 :: r3 =>
        by_cases h2 : c2 = 'D'
        case neg =>
          right
          simpa [checkAnd, h2] using mu_buf_push_lt ['A', 'N'] (c2 :: r3) buf (by simp)
        subst h2
        match r3 with
        | [] =>
          right
          simpa [checkAnd] using mu_buf_push_lt ['A', 'N', 'D'] [] buf (by simp)
        | c3 :: r4 =>
          by_cases h3 : isSpaceChar c3 = true ∨ c3 = '-' ∨ c3 = '('
          · right
            simpa [checkAnd, h3] using
              mu_clear_advance_lt ['A', 'N', 'D'] (c3 :: r4) buf (by simp)
          · right
            simpa [checkAnd, h3] using
              mu_buf_push_lt ['A', 'N', 'D'] (c3 :: r4) buf (by simp)

/-- `checkOr` with `stepOver = false` leaves the state untouched or
strictly shrinks the measure. -/
theorem checkOr_false_cases (st : PState) :
    (checkOr false st).2 = st ∨ mu (checkOr false st).2 < mu st := by
  obtain ⟨inp, buf⟩ := st
  by_cases hb : buf = []
  case neg =>
    by_cases hor : buf = ('O' :: ['R'])
    · left; simp [checkOr, hb, hor]
    · left; simp [checkOr, hb, hor]
  subst hb
  match inp with
  | [] => left; rfl
  | c0 :: r1 =>
    by_cases h0 : c0 = 'O'
    case neg => left; simp [checkOr, h0]
    subst h0
    match r1 with
    | [] =>
      right
      simpa [checkOr] using mu_buf_push_lt ['O'] [] [] (by simp)
    | c1 :: r2 =>
      by_cases h1 : c1 = 'R'
      case neg =>
        right
        simpa [checkOr, h1] using mu_buf_push_lt ['O'] (c1 :: r2) [] (by simp)
      subst h1
      match r2 with
      | [] =>
        right
        simpa [checkOr] using mu_buf_push_lt ['O', 'R'] [] [] (by simp)
      | c2 :: r3 =>
        by_cases h2 : isSpaceChar c2 = true ∨ c2 = '-' ∨ c2 = '('
        · right
          simpa [checkOr, h2] using mu_buf_push_lt ['O', 'R'] (c2 :: r3) [] (by simp)
        · right
          simpa [checkOr, h2] using mu_buf_push_lt ['O', 'R'] (c2 :: r3) [] (by simp)

/-- `checkOr` with `stepOver = true` never grows the measure, and
shrinks it strictly whenever it recognizes an `OR`. -/
theorem checkOr_true_mu (st : PState) :
    mu (checkOr true st).2 ≤ mu st ∧
      ((checkOr true st).1 = true → mu (checkOr true st).2 < mu st) := by
  obtain ⟨inp, buf⟩ := st
  by_cases hb : buf = []
  case neg =>
    by_cases hor : buf = ('O' :: ['R'])
    · subst hor
      have h1 := mu_advance_le ⟨inp, []⟩
      have h2 : mu (⟨inp, []⟩ : PState) = 2 * inp.length := by simp [mu_mk]
      have h3 : (checkOr true ⟨inp, ('O' :: ['R'])⟩).2 = advance ⟨inp, []⟩ := by
        simp [checkOr]
      have h4 : mu ⟨inp, ('O' :: ['R'])⟩ = 2 * inp.length + 1 := by simp [mu_mk]
      refine ⟨?_, fun _ => ?_⟩ <;> rw [h3, h4] <;> omega
    · constructor
      · simp [checkOr, hb, hor]
      · intro hres
        exfalso
        simp [checkOr, hb, hor] at hres
  subst hb
  match inp with
  | [] => exact ⟨le_refl _, by intro h; simp [checkOr] at h⟩
  | c0 :: r1 =>
    by_cases h0 : c0 = 'O'
    case neg =>
      refine ⟨by simp [checkOr, h0], ?_⟩
      intro hres
      exfalso
      simp [checkOr, h0] at hres
    subst h0
    match r1 with
    | [] =>
      refine ⟨?_, ?_⟩
      · have := mu_buf_push_lt ['O'] [] [] (by simp)
        simpa [checkOr] using le_of_lt this
      · intro hres
        exfalso
        simp [checkOr] at hres
    | c1 :: r2 =>
      by_cases h1 : c1 = 'R'
      case neg =>
        refine ⟨?_, ?_⟩
        · have := mu_buf_push_lt ['O'] (c1 :: r2) [] (by simp)
          simpa [checkOr, h1] using le_of_lt this
        · intro hres
          exfalso
          simp [checkOr, h1] at hres
      subst h1
      match r2 with
      | [] =>
        refine ⟨?_, ?_⟩
        · have := mu_buf_push_lt ['O', 'R'] [] [] (by simp)
          simpa [checkOr] using le_of_lt this
        · intro hres
          exfalso
          simp [checkOr] at hres
      | c2 :: r3 =>
        by_cases h2 : isSpaceChar c2 = true ∨ c2 = '-' ∨ c2 = '('
        · refine ⟨?_, ?_⟩ <;>
          · try intro _
            have := mu_clear_advance_lt ['O', 'R'] (c2 :: r3) [] (by simp)
            first
            | exact le_of_lt (by simpa [checkOr, h2] using this)
            | simpa [checkOr, h2] using this
        · refine ⟨?_, ?_⟩
          · have := mu_buf_push_lt ['O', 'R'] (c2 :: r3) [] (by simp)
            simpa [checkOr, h2] using le_of_lt this
          · intro hres
            exfalso
            simp [checkOr, h2] at hres

/-- The term scan either consumes at least one character or breaks
immediately on end of input or a terminator character. -/
theorem termLoop_progress (inp : List Char) :
    ∀ buf col pre q,
      (termLoop inp buf col pre q).1.length < inp.length ∨
        (termLoop inp buf col pre q = (inp, buf, col, pre) ∧
          (inp = [] ∨ (q = false ∧ ∃ c r, inp = c :: r ∧
            (isSpaceChar c = true ∨ c = '(' ∨ c = ')' ∨ c = '-')))) := by
  induction inp with
  | nil =>
    intro buf col pre q
    right
    exact ⟨rfl, Or.inl rfl⟩
  | cons c rest ih =>
    intro buf col pre q
    have step : ∀ buf2 col2 pre2 q2,
        (termLoop rest buf2 col2 pre2 q2).1.length < (c :: rest).length := by
      intro buf2 col2 pre2 q2
      rcases ih buf2 col2 pre2 q2 with h | h
      · simp only [List.length_cons]
        omega
      · rw [h.1]
        simp
    by_cases hq : q = true
    · subst hq
      by_cases hc : c = '"'
      · left; simp only [termLoop, if_pos trivial, if_pos hc]; exact step _ _ _ _
      · left; simp only [termLoop, if_pos trivial, if_neg hc]; exact step _ _ _ _
    · have hq2 : q = false := by simpa using hq
      subst hq2
      by_cases hc : c = '"'
      · left
        simp only [termLoop, Bool.false_eq_true, if_neg, if_pos hc]
        exact step _ _ _ _
      · by_cases hcol : col = [] ∧ c = ':'
        · left
          simp only [termLoop, Bool.false_eq_true, if_neg, if_neg hc, if_pos hcol]
          exact step _ _ _ _
        · by_cases hbrk : isSpaceChar c = true ∨ c = '(' ∨ c = ')' ∨ c = '-'
          · right
            constructor
            · simp [termLoop, hc, hcol, hbrk]
            · right
              exact ⟨rfl, c, rest, rfl, hbrk⟩
          · left
            simp only [termLoop, Bool.false_eq_true, if_neg, if_neg hc, if_neg hcol,
              if_neg hbrk]
            by_cases hbuf : buf = []
            · by_cases hp1 : pre = [] ∧ (c = '>' ∨ c = '<' ∨ c = '=' ∨ c = '!')
              · simp only [if_pos hbuf, if_pos hp1]; exact step _ _ _ _
              · by_cases hp2 : pre ≠ ['='] ∧ c = '='
                · simp only [if_pos hbuf, if_neg hp1, if_pos hp2]; exact step _ _ _ _
                · simp only [if_pos hbuf, if_neg hp1, if_neg hp2]; exact step _ _ _ _
            · simp only [if_neg hbuf]; exact step _ _ _ _

/-- `parseSearchTerm` never grows the measure; when it preserves it,
it changed nothing and the scan stopped at once on end of input or a
terminator. -/
theorem parseSearchTermF_mu {α : Type} (ops : TreeOps α) (st : PState) :
    mu (parseSearchTermF ops st).2 ≤ mu st ∧
      (mu (parseSearchTermF ops st).2 = mu st →
        (parseSearchTermF ops st).2 = st ∧
          (st.inp = [] ∨ ∃ c r, st.inp = c :: r ∧
            (isSpaceChar c = true ∨ c = '(' ∨ c = ')' ∨ c = '-'))) := by
  obtain ⟨inp, buf⟩ := st
  have hres : (parseSearchTermF ops ⟨inp, buf⟩).2 = ⟨(termLoop inp buf [] [] false).1, []⟩ := by
    simp only [parseSearchTermF]
  have h5 : ∀ l : List Char, mu (⟨l, []⟩ : PState) = 2 * l.length := by
    intro l
    simp [mu_mk]
  rcases termLoop_progress inp buf [] [] false with h | ⟨heq, hbrk⟩
  · have hmu : mu (parseSearchTermF ops ⟨inp, buf⟩).2 < mu ⟨inp, buf⟩ := by
      rw [hres, h5]
      simp only [mu_mk]
      omega
    exact ⟨le_of_lt hmu, fun hc => absurd hc (by omega)⟩
  · have h1p : (termLoop inp buf [] [] false).1 = inp := by rw [heq]
    rw [h1p] at hres
    by_cases hb : buf = []
    · subst hb
      have heq2 : (parseSearchTermF ops ⟨inp, []⟩).2 = ⟨inp, []⟩ := hres
      refine ⟨le_of_eq (by rw [heq2]), fun _ => ⟨heq2, ?_⟩⟩
      rcases hbrk with h | ⟨_, c, r, hcr, hc⟩
      · exact Or.inl h
      · exact Or.inr ⟨c, r, hcr, hc⟩
    · have h4 : mu (⟨inp, buf⟩ : PState) = 2 * inp.length + 1 := by simp [mu_mk, hb]
      have hmu : mu (parseSearchTermF ops ⟨inp, buf⟩).2 < mu ⟨inp, buf⟩ := by
        rw [hres, h5, h4]
        omega
      exact ⟨le_of_lt hmu, fun hc => absurd hc (by omega)⟩

end MuLemmas

section Totality

/-- Unfolded form of the measure. -/
theorem mu_def (st : PState) :
    mu st = 2 * st.inp.length + (if st.buf = [] then 0 else 1) := rfl

/-- `advance` does not touch the carry buffer. -/
theorem advance_buf (st : PState) : (advance st).buf = st.buf := rfl

/-- The C++ recursion terminates: with fuel exceeding four times the
measure, every parsing function succeeds without growing the measure,
and `parseSearchExpression` can preserve the measure only by consuming
nothing at end of input or in front of a ')'. -/
theorem parserTotalAux {α : Type} (ops : TreeOps α) :
    ∀ f : Nat,
      (∀ st, 4 * mu st + 4 ≤ f →
        ∃ r, pOrGroup ops f st = some r ∧ mu r.2 ≤ mu st) ∧
      (∀ acc st, 4 * mu st + 3 ≤ f →
        ∃ r, pOrLoop ops f acc st = some r ∧ mu r.2 ≤ mu st) ∧
      (∀ st, 4 * mu st + 3 ≤ f →
        ∃ r, pAndGroup ops f st = some r ∧ mu r.2 ≤ mu st) ∧
      (∀ acc st, 4 * mu st + 2 ≤ f →
        ∃ r, pAndLoop ops f acc st = some r ∧ mu r.2 ≤ mu st) ∧
      (∀ st, 4 * mu st + 1 ≤ f →
        ∃ r, pSexpr ops f st = some r ∧ mu r.2 ≤ mu st ∧
          (mu r.2 = mu st → r.2 = st ∧ (st.inp = [] ∨ st.inp.head? = some ')'))) := by
  intro f
  induction f with
  | zero =>
    refine ⟨?_, ?_, ?_, ?_, ?_⟩ <;> intros <;> omega
  | succ f ih =>
    obtain ⟨ihOr, ihOrLoop, ihAnd, ihAndLoop, ihSexpr⟩ := ih
    have hOr : ∀ st, 4 * mu st + 4 ≤ f + 1 →
        ∃ r, pOrGroup ops (f + 1) st = some r ∧ mu r.2 ≤ mu st := by
      intro st hf
      have hadv := mu_advance_le st
      by_cases hend : (advance st).inp = []
      · exact ⟨(ops.nop, advance st), by simp [pOrGroup, hend], hadv⟩
      · have h1 : 4 * mu (advance st) + 3 ≤ f := by omega
        obtain ⟨⟨t1, st1⟩, hr1, hmu1⟩ := ihAnd (advance st) h1
        simp only at hmu1
        have hadv2 := mu_advance_le st1
        have h2 : 4 * mu (advance st1) + 3 ≤ f := by omega
        obtain ⟨r2, hr2, hmu2⟩ := ihOrLoop [t1] (advance st1) h2
        refine ⟨r2, ?_, by omega⟩
        simp only [pOrGroup, if_neg hend, hr1]
        exact hr2
    have hOrLoop : ∀ acc st, 4 * mu st + 3 ≤ f + 1 →
        ∃ r, pOrLoop ops (f + 1) acc st = some r ∧ mu r.2 ≤ mu st := by
      intro acc st hf
      have hco := checkOr_true_mu st
      rcases hck : checkOr true st with ⟨b, st1⟩
      rw [hck] at hco
      simp only at hco
      cases b with
      | false =>
        refine ⟨(ops.mkOr acc, st1), ?_, hco.1⟩
        simp only [pOrLoop]
        rw [hck]
      | true =>
        have hlt : mu st1 < mu st := hco.2 rfl
        have h1 : 4 * mu st1 + 3 ≤ f := by omega
        obtain ⟨⟨t1, st2⟩, hr1, hmu1⟩ := ihAnd st1 h1
        simp only at hmu1
        have hadv2 := mu_advance_le st2
        have h2 : 4 * mu (advance st2) + 3 ≤ f := by omega
        obtain ⟨r2, hr2, hmu2⟩ := ihOrLoop (acc ++ [t1]) (advance st2) h2
        refine ⟨r2, ?_, by omega⟩
        simp only [pOrLoop, hck, hr1]
        exact hr2
    have hAnd : ∀ st, 4 * mu st + 3 ≤ f + 1 →
        ∃ r, pAndGroup ops (f + 1) st = some r ∧ mu r.2 ≤ mu st := by
      intro st hf
      have hadv := mu_advance_le st
      by_cases hend : (advance st).inp = []
      · exact ⟨(ops.nop, advance st), by simp [pAndGroup, hend], hadv⟩
      · have h1 : 4 * mu (advance st) + 2 ≤ f := by omega
        obtain ⟨r, hr, hmu⟩ := ihAndLoop [] (advance st) h1
        refine ⟨r, ?_, by omega⟩
        simp only [pAndGroup, if_neg hend]
        exact hr
    have hAndLoop : ∀ acc st, 4 * mu st + 2 ≤ f + 1 →
        ∃ r, pAndLoop ops (f + 1) acc st = some r ∧ mu r.2 ≤ mu st := by
      intro acc st hf
      have h1 : 4 * mu st + 1 ≤ f := by omega
      obtain ⟨⟨t1, st1⟩, hr1, hmu1, hpres⟩ := ihSexpr st h1
      simp only at hmu1 hpres
      have hadv2 := mu_advance_le st1
      by_cases hpar : (advance st1).inp.head? = some ')'
      · refine ⟨(ops.mkAnd (acc ++ [t1]), advance st1), ?_, by simp only; omega⟩
        simp only [pAndLoop, hr1, if_pos hpar]
      · have hcoF := checkOr_false_cases (advance st1)
        rcases hck : checkOr false (advance st1) with ⟨b, st3⟩
        rw [hck] at hcoF
        simp only at hcoF
        have hmu3 : mu st3 ≤ mu (advance st1) := by
          rcases hcoF with he | hlt
          · exact le_of_eq (by rw [he])
          · exact le_of_lt hlt
        cases b with
        | true =>
          refine ⟨(ops.mkAnd (acc ++ [t1]), st3), ?_, by simp only; omega⟩
          simp only [pAndLoop, hr1, if_neg hpar, hck]
        | false =>
          have hcaF := checkAnd_cases st3
          have hmu4 : mu (checkAnd st3).2 ≤ mu st3 := by
            rcases hcaF with he | hlt
            · exact le_of_eq (by rw [he])
            · exact le_of_lt hlt
          by_cases hend4 : (checkAnd st3).2.inp = []
          · refine ⟨(ops.mkAnd (acc ++ [t1]), (checkAnd st3).2), ?_, by simp only; omega⟩
            simp only [pAndLoop, hr1, if_neg hpar, hck, if_pos hend4]
          · have hlt4 : mu (checkAnd st3).2 < mu st := by
              rcases lt_or_eq_of_le (le_trans hmu4 (le_trans hmu3 (le_trans hadv2 hmu1)))
                with hstrict | heq4
              · exact hstrict
              · exfalso
                have e4 : mu (checkAnd st3).2 = mu st3 := by omega
                have e3 : mu st3 = mu (advance st1) := by omega
                have e2 : mu (advance st1) = mu st1 := by omega
                have e1 : mu st1 = mu st := by omega
                have q4 : (checkAnd st3).2 = st3 := by
                  rcases hcaF with he | hlt
                  · exact he
                  · omega
                have q3 : st3 = advance st1 := by
                  rcases hcoF with he | hlt
                  · exact he
                  · omega
                have q2 : advance st1 = st1 := by
                  rcases advance_cases st1 with he | hlt
                  · exact he
                  · omega
                obtain ⟨q1, hbreak⟩ := hpres e1
                rcases hbreak with hnil | hhead
                · apply hend4
                  rw [q4, q3, q2, q1, hnil]
                · apply hpar
                  rw [q2, q1]
                  exact hhead
            have h2 : 4 * mu (checkAnd st3).2 + 2 ≤ f := by omega
            obtain ⟨r, hr, hmu⟩ := ihAndLoop (acc ++ [t1]) (checkAnd st3).2 h2
            refine ⟨r, ?_, by omega⟩
            simp only [pAndLoop, hr1, if_neg hpar, hck, if_neg hend4]
            exact hr
    have hSexpr : ∀ st, 4 * mu st + 1 ≤ f + 1 →
        ∃ r, pSexpr ops (f + 1) st = some r ∧ mu r.2 ≤ mu st ∧
          (mu r.2 = mu st → r.2 = st ∧ (st.inp = [] ∨ st.inp.head? = some ')')) := by
      intro st hf
      have hadv := mu_advance_le st
      rcases hsa : (advance st).inp with _ | ⟨c, rest⟩
      · refine ⟨(ops.nop, advance st), ?_, hadv, ?_⟩
        · simp only [pSexpr]
          rw [hsa]
        · intro hmu
          simp only at hmu
          have he : advance st = st := by
            rcases advance_cases st with he | hlt
            · exact he
            · omega
          refine ⟨he, Or.inl ?_⟩
          rw [← he]
          exact hsa
      · have hmuC : mu (⟨rest, (advance st).buf⟩ : PState) + 2 = mu (advance st) := by
          rw [mu_def (advance st), hsa, mu_mk]
          simp only [List.length_cons, advance_buf]
          omega
        by_cases hcp : c = '('
        · have h1 : 4 * mu (advance ⟨rest, (advance st).buf⟩) + 4 ≤ f := by
            have := mu_advance_le ⟨rest, (advance st).buf⟩
            omega
          obtain ⟨⟨t1, st2⟩, hr1, hmu1⟩ := ihOr (advance ⟨rest, (advance st).buf⟩) h1
          simp only at hmu1
          have hadv3 := mu_advance_le st2
          have hstrict : ∀ st4 : PState, mu st4 ≤ mu (advance st2) → mu st4 < mu st := by
            intro st4 h4
            have := mu_advance_le ⟨rest, (advance st).buf⟩
            omega
          rcases hs3 : (advance st2).inp with _ | ⟨c3, r3⟩
          · refine ⟨(t1, advance st2), ?_, ?_, ?_⟩
            · simp only [pSexpr, hsa, if_pos hcp, hr1, hs3]
            · exact le_of_lt (hstrict _ le_rfl)
            · intro hmu
              simp only at hmu
              exact absurd hmu (ne_of_lt (hstrict _ le_rfl))
          · by_cases hc3 : c3 = ')'
            · subst hc3
              have hmu4 : mu (⟨r3, (advance st2).buf⟩ : PState) ≤ mu (advance st2) := by
                rw [mu_def (advance st2), hs3, mu_mk]
                simp only [List.length_cons, advance_buf]
                omega
              refine ⟨(t1, ⟨r3, (advance st2).buf⟩), ?_, ?_, ?_⟩
              · simp only [pSexpr, hsa, if_pos hcp, hr1, hs3]
              · exact le_of_lt (hstrict _ hmu4)
              · intro hmu
                simp only at hmu
                exact absurd hmu (ne_of_lt (hstrict _ hmu4))
            · refine ⟨(t1, advance st2), ?_, ?_, ?_⟩
              · simp only [pSexpr, hsa, if_pos hcp, hr1]
                rw [hs3]
                split
                · rename_i heq2
                  injection heq2 with h1 h2
                  exact absurd h1 hc3
                · rfl
              · exact le_of_lt (hstrict _ le_rfl)
              · intro hmu
                simp only at hmu
                exact absurd hmu (ne_of_lt (hstrict _ le_rfl))
        · by_cases hcm : c = '-'
          · have h1 : 4 * mu (⟨rest, (advance st).buf⟩ : PState) + 1 ≤ f := by omega
            obtain ⟨⟨t1, st1⟩, hr1, hmu1, _⟩ := ihSexpr ⟨rest, (advance st).buf⟩ h1
            simp only at hmu1
            have hfin : mu st1 < mu st := by omega
            by_cases hnop : ops.isNop t1 = true
            · refine ⟨(t1, st1), ?_, le_of_lt hfin, ?_⟩
              · simp only [pSexpr, hsa, if_neg hcp, if_pos hcm, hr1, hnop, if_true]
              · intro hmu
                simp only at hmu
                exact absurd hmu (ne_of_lt hfin)
            · refine ⟨(ops.mkNot t1, st1), ?_, le_of_lt hfin, ?_⟩
              · simp only [pSexpr, hsa, if_neg hcp, if_pos hcm, hr1]
                simp [hnop]
              · intro hmu
                simp only at hmu
                exact absurd hmu (ne_of_lt hfin)
          · obtain ⟨hle, hpres⟩ := parseSearchTermF_mu ops (advance st)
            refine ⟨parseSearchTermF ops (advance st), ?_, le_trans hle hadv, ?_⟩
            · simp only [pSexpr, hsa, if_neg hcp, if_neg hcm]
            · intro hmu
              have he : advance st = st := by
                rcases advance_cases st with he | hlt
                · exact he
                · omega
              have hmadv : mu (advance st) = mu st := by rw [he]
              have hmu2 : mu (parseSearchTermF ops (advance st)).2 = mu (advance st) := by
                omega
              obtain ⟨hst, hbrk⟩ := hpres hmu2
              have hsa2 : st.inp = c :: rest := by rw [← hsa, he]
              have hnsp : isSpaceChar c = false := by
                have hh := List.head?_dropWhile_not isSpaceChar st.inp
                have hdw : st.inp.dropWhile isSpaceChar = c :: rest := hsa
                rw [hdw] at hh
                simpa using hh
              refine ⟨hst.trans he, Or.inr ?_⟩
              rw [hsa2]
              rcases hbrk with hnil | ⟨c2, r2, hcr, hbr⟩
              · rw [he, hsa2] at hnil
                exact absurd hnil (by simp)
              · rw [he, hsa2] at hcr
                injection hcr with hc12 _
                rw [← hc12] at hbr
                rcases hbr with hx | hx | hx | hx
                · rw [hnsp] at hx
                  exact absurd hx (by simp)
                · exact absurd hx hcp
                · simp [hx]
                · exact absurd hx hcm
    exact ⟨hOr, hOrLoop, hAnd, hAndLoop, hSexpr⟩

/-- `runParse` always succeeds: the fuel `parseFuel` covers the whole
recursion. -/
theorem runParse_total {α : Type} (ops : TreeOps α) (s : List Char) :
    ∃ t, runParse ops s = some t := by
  have hmu : mu ⟨s, []⟩ = 2 * s.length := by simp [mu_mk]
  have hf : 4 * mu ⟨s, []⟩ + 4 ≤ parseFuel s := by
    rw [hmu]
    simp only [parseFuel]
    omega
  obtain ⟨r, hr, _⟩ := (parserTotalAux ops (parseFuel s)).1 ⟨s, []⟩ hf
  exact ⟨r.1, by simp [runParse, hr]⟩

end Totality

section Preservation

/-- Every tree a parse run builds is made of `Nop`, term nodes from
`createSearchTermTreeNode`, and `Or`/`And`/`Not` nodes over previously
built trees: any predicate holding for the leaves and preserved by the
combinators holds for every parse result. -/
theorem parserPreservesAux {α : Type} (ops : TreeOps α) (P : α → Prop)
    (hnop : P ops.nop)
    (hterm : ∀ c p s, P (ops.mkTerm c p s))
    (hor : ∀ l, (∀ x ∈ l, P x) → P (ops.mkOr l))
    (hand : ∀ l, (∀ x ∈ l, P x) → P (ops.mkAnd l))
    (hnot : ∀ t, P t → P (ops.mkNot t)) :
    ∀ f : Nat,
      (∀ st r, pOrGroup ops f st = some r → P r.1) ∧
      (∀ acc st r, (∀ x ∈ acc, P x) → pOrLoop ops f acc st = some r → P r.1) ∧
      (∀ st r, pAndGroup ops f st = some r → P r.1) ∧
      (∀ acc st r, (∀ x ∈ acc, P x) → pAndLoop ops f acc st = some r → P r.1) ∧
      (∀ st r, pSexpr ops f st = some r → P r.1) := by
  have hTermNode : ∀ st, P (parseSearchTermF ops st).1 := by
    intro st
    rcases h : termLoop st.inp st.buf [] [] false with ⟨inp2, buf2, column, pre⟩
    simp only [parseSearchTermF, h]
    exact hterm _ _ _
  intro f
  induction f with
  | zero =>
    refine ⟨?_, ?_, ?_, ?_, ?_⟩ <;> intros <;>
      simp_all [pOrGroup, pOrLoop, pAndGroup, pAndLoop, pSexpr]
  | succ f ih =>
    obtain ⟨ihOr, ihOrLoop, ihAnd, ihAndLoop, ihSexpr⟩ := ih
    have hOr : ∀ st r, pOrGroup ops (f + 1) st = some r → P r.1 := by
      intro st r hr
      simp only [pOrGroup] at hr
      by_cases hend : (advance st).inp = []
      · rw [if_pos hend] at hr
        injection hr with hr2
        rw [← hr2]
        exact hnop
      · rw [if_neg hend] at hr
        cases h1 : pAndGroup ops f (advance st) with
        | none => rw [h1] at hr; exact absurd hr (by simp)
        | some p =>
          obtain ⟨t, st1⟩ := p
          rw [h1] at hr
          refine ihOrLoop [t] (advance st1) r ?_ hr
          intro x hx
          simp only [List.mem_singleton] at hx
          subst hx
          exact ihAnd _ _ h1
    have hOrLoop : ∀ acc st r, (∀ x ∈ acc, P x) →
        pOrLoop ops (f + 1) acc st = some r → P r.1 := by
      intro acc st r hacc hr
      simp only [pOrLoop] at hr
      rcases hck : checkOr true st with ⟨b, st1⟩
      rw [hck] at hr
      cases b with
      | false =>
        simp only at hr
        injection hr with hr2
        rw [← hr2]
        exact hor acc hacc
      | true =>
        simp only at hr
        cases h1 : pAndGroup ops f st1 with
        | none => rw [h1] at hr; exact absurd hr (by simp)
        | some p =>
          obtain ⟨t, st2⟩ := p
          rw [h1] at hr
          refine ihOrLoop (acc ++ [t]) (advance st2) r ?_ hr
          intro x hx
          rcases List.mem_append.mp hx with h | h
          · exact hacc x h
          · simp only [List.mem_singleton] at h
            subst h
            exact ihAnd _ _ h1
    have hAnd : ∀ st r, pAndGroup ops (f + 1) st = some r → P r.1 := by
      intro st r hr
      simp only [pAndGroup] at hr
      by_cases hend : (advance st).inp = []
      · rw [if_pos hend] at hr
        injection hr with hr2
        rw [← hr2]
        exact hnop
      · rw [if_neg hend] at hr
        exact ihAndLoop [] (advance st) r (by intro x hx; simp at hx) hr
    have hAndLoop : ∀ acc st r, (∀ x ∈ acc, P x) →
        pAndLoop ops (f + 1) acc st = some r → P r.1 := by
      intro acc st r hacc hr
      simp only [pAndLoop] at hr
      cases h1 : pSexpr ops f st with
      | none => rw [h1] at hr; exact absurd hr (by simp)
      | some p =>
        obtain ⟨t, st1⟩ := p
        rw [h1] at hr
        simp only at hr
        have hacc2 : ∀ x ∈ acc ++ [t], P x := by
          intro x hx
          rcases List.mem_append.mp hx with h | h
          · exact hacc x h
          · simp only [List.mem_singleton] at h
            subst h
            exact ihSexpr _ _ h1
        by_cases hpar : (advance st1).inp.head? = some ')'
        · rw [if_pos hpar] at hr
          injection hr with hr2
          rw [← hr2]
          exact hand _ hacc2
        · rw [if_neg hpar] at hr
          rcases hck : checkOr false (advance st1) with ⟨b, st3⟩
          rw [hck] at hr
          cases b with
          | true =>
            simp only at hr
            injection hr with hr2
            rw [← hr2]
            exact hand _ hacc2
          | false =>
            simp only at hr
            by_cases hend4 : (checkAnd st3).2.inp = []
            · rw [if_pos hend4] at hr
              injection hr with hr2
              rw [← hr2]
              exact hand _ hacc2
            · rw [if_neg hend4] at hr
              exact ihAndLoop (acc ++ [t]) (checkAnd st3).2 r hacc2 hr
    have hSexpr : ∀ st r, pSexpr ops (f + 1) st = some r → P r.1 := by
      intro st r hr
      simp only [pSexpr] at hr
      rcases hsa : (advance st).inp with _ | ⟨c, rest⟩
      · rw [hsa] at hr
        simp only at hr
        injection hr with hr2
        rw [← hr2]
        exact hnop
      · rw [hsa] at hr
        simp only at hr
        by_cases hcp : c = '('
        · rw [if_pos hcp] at hr
          cases h1 : pOrGroup ops f (advance ⟨rest, (advance st).buf⟩) with
          | none => rw [h1] at hr; exact absurd hr (by simp)
          | some p =>
            obtain ⟨t, st2⟩ := p
            rw [h1] at hr
            simp only at hr
            injection hr with hr2
            rw [← hr2]
            exact ihOr _ (t, st2) h1
        · rw [if_neg hcp] at hr
          by_cases hcm : c = '-'
          · rw [if_pos hcm] at hr
            cases h1 : pSexpr ops f ⟨rest, (advance st).buf⟩ with
            | none => rw [h1] at hr; exact absurd hr (by simp)
            | some p =>
              obtain ⟨t, st1⟩ := p
              rw [h1] at hr
              simp only at hr
              by_cases hnop2 : ops.isNop t = true
              · rw [if_pos hnop2] at hr
                injection hr with hr2
                rw [← hr2]
                exact ihSexpr _ _ h1
              · rw [if_neg hnop2] at hr
                injection hr with hr2
                rw [← hr2]
                exact hnot _ (ihSexpr _ _ h1)
          · rw [if_neg hcm] at hr
            injection hr with hr2
            rw [← hr2]
            exact hTermNode _
    exact ⟨hOr, hOrLoop, hAnd, hAndLoop, hSexpr⟩

/-- Leaf-and-combinator closure carries over to whole parse runs. -/
theorem runParse_preserves {α : Type} (ops : TreeOps α) (P : α → Prop)
    (hnop : P ops.nop)
    (hterm : ∀ c p s, P (ops.mkTerm c p s))
    (hor : ∀ l, (∀ x ∈ l, P x) → P (ops.mkOr l))
    (hand : ∀ l, (∀ x ∈ l, P x) → P (ops.mkAnd l))
    (hnot : ∀ t, P t → P (ops.mkNot t))
    (s : List Char) (t : α) (h : runParse ops s = some t) : P t := by
  simp only [runParse] at h
  cases h2 : pOrGroup ops (parseFuel s) ⟨s, []⟩ with
  | none => rw [h2] at h; exact absurd h (by simp)
  | some r =>
    rw [h2] at h
    simp only [Option.map] at h
    injection h with h3
    rw [← h3]
    exact (parserPreservesAux ops P hnop hterm hor hand hnot (parseFuel s)).1 _ _ h2

end Preservation

section ClaimSupport

/-- A song whose text fields are all empty and whose numeric fields are
zero, except for the given duration in nanoseconds. -/
def songWithLength (n : Int) : Song :=
  ⟨[], [], [], [], [], [], [], [], [], 0, 0, n, 0, 0, 0, [], 0, 0⟩

/-- A song with every field empty or zero. -/
def emptySong : Song := songWithLength 0

/-- A song whose artist is the mixed-case text `Queen`. -/
def queenSong : Song :=
  ⟨[], ("Queen").data, [], [], [], [], [], [], [], 0, 0, 0, 0, 0, 0, [], 0, 0⟩

/-- Modelled from the spec: a representative play-queue registry
(§6 — each caller supplies its own `(name, kind, accessor)` list; the
playlist caller's column map and numerical-column set live outside the
excerpt).  Distinct indices, with `length` and `rating` mapped to the
modelled `Playlist::Column` values and the numerical set holding the
integer-kind columns. -/
def playCfg : PlaylistConfig :=
  ⟨[(("title").data, 0), (("album").data, 1), (("artist").data, 2),
    (("genre").data, 8), (("year").data, 6), (("track").data, 5),
    (("length").data, playlistLengthColumn), (("rating").data, playlistRatingColumn)],
   [5, 6, playlistLengthColumn]⟩

mutual
/-- The §3 invariant on collection trees: every `ColumnTerm` holds a
column from `Song::kSearchColumns` and every `Term` holds exactly the
`Song::kSearchColumns` default set. -/
def cNodeOk : CTree → Bool
  | .nop => true
  | .orF cs => cListOk cs
  | .andF cs => cListOk cs
  | .notF c => cNodeOk c
  | .columnTerm col _ => decide (col ∈ kSearchColumns)
  | .term _ cols => decide (cols = kSearchColumns)

/-- The invariant over a child list. -/
def cListOk : List CTree → Bool
  | [] => true
  | c :: cs => cNodeOk c && cListOk cs
end

mutual
/-- The §3 invariant on playlist trees, relative to the caller-supplied
registry: every `ColumnTerm` holds a registered column index and every
`Term` holds exactly the registry's value list. -/
def pNodeOk (cfg : PlaylistConfig) : PTree → Bool
  | .nop => true
  | .orF cs => pListOk cfg cs
  | .andF cs => pListOk cfg cs
  | .notF c => pNodeOk cfg c
  | .columnTerm col _ => decide (col ∈ cfg.columns.map Prod.snd)
  | .term _ cols => decide (cols = cfg.columns.map Prod.snd)

/-- The playlist invariant over a child list. -/
def pListOk (cfg : PlaylistConfig) : List PTree → Bool
  | [] => true
  | c :: cs => pNodeOk cfg c && pListOk cfg cs
end

/-- A child list is invariant when each child is. -/
theorem cListOk_of_forall (l : List CTree) (h : ∀ x ∈ l, cNodeOk x = true) :
    cListOk l = true := by
  induction l with
  | nil => rfl
  | cons c cs ih =>
    simp only [cListOk, Bool.and_eq_true]
    exact ⟨h c (by simp), ih (fun x hx => h x (by simp [hx]))⟩

/-- A playlist child list is invariant when each child is. -/
theorem pListOk_of_forall (cfg : PlaylistConfig) (l : List PTree)
    (h : ∀ x ∈ l, pNodeOk cfg x = true) : pListOk cfg l = true := by
  induction l with
  | nil => rfl
  | cons c cs ih =>
    simp only [pListOk, Bool.and_eq_true]
    exact ⟨h c (by simp), ih (fun x hx => h x (by simp [hx]))⟩

/-- Every term node the collection parser builds satisfies the
invariant: the `kSearchColumns` membership test guards the
`ColumnTerm` constructor, and the fallback `Term` gets the whole
default set. -/
theorem createC_ok (c p s : List Char) :
    cNodeOk (createSearchTermTreeNodeC c p s) = true := by
  by_cases h0 : s = [] ∧ p ≠ ['=']
  · simp [createSearchTermTreeNodeC, h0, cNodeOk]
  · simp only [createSearchTermTreeNodeC, if_neg h0]
    by_cases hc : c ∈ kSearchColumns
    · simp [if_pos hc, cNodeOk, hc]
    · simp [if_neg hc, cNodeOk]

/-- The value looked up under a contained key is among the map's
values. -/
theorem qmapValue_mem (m : List (List Char × Int)) (k : List Char)
    (h : qmapContains m k = true) : qmapValue m k ∈ m.map Prod.snd := by
  simp only [qmapContains, Option.isSome_iff_exists] at h
  obtain ⟨p, hp⟩ := h
  simp only [qmapValue, hp]
  exact List.mem_map.mpr ⟨p, List.mem_of_find?_eq_some hp, rfl⟩

/-- Every term node the playlist parser builds satisfies the invariant
relative to its registry. -/
theorem createP_ok (cfg : PlaylistConfig) (c p s : List Char) :
    pNodeOk cfg (createSearchTermTreeNodeP cfg c p s) = true := by
  by_cases h0 : s = [] ∧ p ≠ ['=']
  · simp [createSearchTermTreeNodeP, h0, pNodeOk]
  · simp only [createSearchTermTreeNodeP, if_neg h0]
    by_cases hc : qmapContains cfg.columns c = true
    · simp [if_pos hc, pNodeOk, qmapValue_mem cfg.columns c hc]
    · simp [if_neg hc, pNodeOk]

/-- Evaluating a one-term tree reduces to the term's comparator applied
to the column's text form. -/
theorem accept_single (col : List Char) (cmp : Cmp) (song : Song) :
    acceptSong (.orF [.andF [.columnTerm col cmp]]) song =
      cmpMatches cmp (DataFromField col song) := by
  simp [acceptSong, anyAccept, anyRejects]

/-- `anyAccept` is the existence of an accepting child. -/
theorem anyAccept_iff (cs : List CTree) (song : Song) :
    anyAccept cs song = true ↔ ∃ c ∈ cs, acceptSong c song = true := by
  induction cs with
  | nil => simp [anyAccept]
  | cons c cs ih => simp [anyAccept, ih]

/-- `anyRejects` is false exactly when every child accepts. -/
theorem anyRejects_false_iff (cs : List CTree) (song : Song) :
    anyRejects cs song = false ↔ ∀ c ∈ cs, acceptSong c song = true := by
  induction cs with
  | nil => simp [anyRejects]
  | cons c cs ih => simp [anyRejects, ih]

/-- Playlist counterpart of `anyAccept_iff`. -/
theorem anyAcceptRow_iff (cs : List PTree) (row : PRow) :
    anyAcceptRow cs row = true ↔ ∃ c ∈ cs, acceptRow c row = true := by
  induction cs with
  | nil => simp [anyAcceptRow]
  | cons c cs ih => simp [anyAcceptRow, ih]

/-- Playlist counterpart of `anyRejects_false_iff`. -/
theorem anyRejectsRow_false_iff (cs : List PTree) (row : PRow) :
    anyRejectsRow cs row = false ↔ ∀ c ∈ cs, acceptRow c row = true := by
  induction cs with
  | nil => simp [anyRejectsRow]
  | cons c cs ih => simp [anyRejectsRow, ih]

/-- Shape of the collection term node for `artist` with the `=`
prefix. -/
theorem createC_artist_eq (s : List Char) :
    createSearchTermTreeNodeC (("artist").data) ['='] s =
      CTree.columnTerm (("artist").data) (Cmp.eqCmp s) := by
  simp [createSearchTermTreeNodeC, kSearchColumns, kNumericalSearchColumns]

/-- Shape of the collection term node for `artist` with the `!=`
prefix and non-empty search text. -/
theorem createC_artist_ne (s : List Char) (hs : s ≠ []) :
    createSearchTermTreeNodeC (("artist").data) ('!' :: ['=']) s =
      CTree.columnTerm (("artist").data) (Cmp.neCmp s) := by
  simp [createSearchTermTreeNodeC, kSearchColumns, kNumericalSearchColumns, hs]

/-- Shape of the playlist term node for `artist` with the `=`
prefix. -/
theorem createP_artist_eq (s : List Char) :
    createSearchTermTreeNodeP playCfg (("artist").data) ['='] s =
      PTree.columnTerm 2 (Cmp.eqCmp s) := by
  have h1 : qmapValue playCfg.columns (("artist").data) = 2 := rfl
  have h2 : qmapContains playCfg.columns (("artist").data) = true := rfl
  have h3 : ¬(qmapValue playCfg.columns (("artist").data) = playlistRatingColumn) := by decide
  have h4 : ¬(qmapValue playCfg.columns (("artist").data) ∈ playCfg.numerical) := by decide
  have h5 : ¬(qmapValue playCfg.columns (("artist").data) = playlistLengthColumn) := by decide
  simp [createSearchTermTreeNodeP, h1, h2, h3, h4, h5]
  simp [playlistRatingColumn, playlistLengthColumn, playCfg]

/-- Shape of the playlist term node for `artist` with the `!=` prefix
and non-empty search text. -/
theorem createP_artist_ne (s : List Char) (hs : s ≠ []) :
    createSearchTermTreeNodeP playCfg (("artist").data) ('!' :: ['=']) s =
      PTree.columnTerm 2 (Cmp.neCmp s) := by
  have h1 : qmapValue playCfg.columns (("artist").data) = 2 := rfl
  have h2 : qmapContains playCfg.columns (("artist").data) = true := rfl
  have h3 : ¬(qmapValue playCfg.columns (("artist").data) = playlistRatingColumn) := by decide
  have h5 : ¬(qmapValue playCfg.columns (("artist").data) = playlistLengthColumn) := by decide
  simp [createSearchTermTreeNodeP, h1, h2, h3, h5, hs]
  simp [playlistRatingColumn, playlistLengthColumn, playCfg]

/-- A collection column term on `artist` applies its comparator to the
raw (not lower-cased) artist text. -/
theorem accept_artist_col (cmp : Cmp) (song : Song) :
    acceptSong (CTree.columnTerm (("artist").data) cmp) song =
      cmpMatches cmp song.artist := by
  have hdf : DataFromField (("artist").data) song = song.artist := by
    simp [DataFromField]
  simp [acceptSong, hdf]

/-- Evaluating a playlist one-term tree reduces to the comparator on
the lower-cased model text. -/
theorem accept_singleRow (col : Int) (cmp : Cmp) (row : PRow) :
    acceptRow (.orF [.andF [.columnTerm col cmp]]) row =
      cmpMatches cmp (toLowerStr (row col)) := by
  simp [acceptRow, anyAcceptRow, anyRejectsRow]

/-- A character with no lexical role in the term grammar: not
whitespace, not a quote, not a grouping character, not a negation. -/
def plainChar (c : Char) : Prop :=
  isSpaceChar c = false ∧ c ≠ '"' ∧ c ≠ '(' ∧ c ≠ ')' ∧ c ≠ '-'

instance (c : Char) : Decidable (plainChar c) := by
  unfold plainChar
  infer_instance

/-- Once a column is set and the prefix is `=`, the scan moves every
plain character into the buffer: a second `:` no longer splits (the
column is non-empty) and `=` is no longer absorbed into the prefix. -/
theorem termLoop_plain (X : List Char) (hX : ∀ c ∈ X, plainChar c) :
    ∀ b col, col ≠ [] →
      termLoop X b col ['='] false = ([], b ++ X, col, ['=']) := by
  induction X with
  | nil =>
    intro b col _
    simp [termLoop]
  | cons c X' ih =>
    intro b col hcol
    obtain ⟨hsp, hq, hp1, hp2, hm⟩ := hX c (by simp)
    have hcol2 : ¬(col = [] ∧ c = ':') := by
      intro hand
      exact hcol hand.1
    have hbrk : ¬(isSpaceChar c = true ∨ c = '(' ∨ c = ')' ∨ c = '-') := by
      simp [hsp, hp1, hp2, hm]
    have hpre1 : ¬((['='] : List Char) = [] ∧ (c = '>' ∨ c = '<' ∨ c = '=' ∨ c = '!')) := by
      simp
    have hpre2 : ¬((['='] : List Char) ≠ ['='] ∧ c = '=') := by
      simp
    have ihX := ih (fun d hd => hX d (by simp [hd])) (b ++ [c]) col hcol
    by_cases hb : b = []
    · subst hb
      simp only [termLoop, Bool.false_eq_true, if_neg, if_neg hq, if_neg hcol2, if_neg hbrk,
        if_pos rfl, if_neg hpre1, if_neg hpre2]
      simpa using ihX
    · simp only [termLoop, Bool.false_eq_true, if_neg, if_neg hq, if_neg hcol2, if_neg hbrk,
        if_neg hb]
      simpa using ihX

/-- The whole scan of `artist:=X` for plain `X`: the column name is
collected and lower-cased at the `:`, the `=` becomes the prefix, and
all of `X` becomes the buffer. -/
theorem termLoop_artist_eq (X : List Char) (hX : ∀ c ∈ X, plainChar c) :
    termLoop ((("artist:=").data) ++ X) [] [] [] false =
      ([], X, (("artist").data), ['=']) := by
  have h1 : termLoop ((("artist:=").data) ++ X) [] [] [] false =
      termLoop X [] (("artist").data) ['='] false := rfl
  rw [h1, termLoop_plain X hX [] (("artist").data) (by decide)]
  simp

/-- Parsing a filter that is the single column term `artist:=X`, for
plain operand text `X`, yields an or-group holding one and-group
holding the term node built from column `artist`, prefix `=` and the
lower-cased operand — in either parser instance. -/
theorem runParse_artist_eq {α : Type} (ops : TreeOps α) (X : List Char)
    (hX : ∀ c ∈ X, plainChar c) :
    runParse ops ((("artist:=").data) ++ X) =
      some (ops.mkOr [ops.mkAnd [ops.mkTerm (("artist").data) ['='] (toLowerStr X)]]) := by
  obtain ⟨f0, hF⟩ : ∃ f0, parseFuel ((("artist:=").data) ++ X) = f0 + 1 + 1 + 1 + 1 := by
    refine ⟨8 * X.length + 64, ?_⟩
    have h8 : ((("artist:=").data) : List Char).length = 8 := rfl
    simp [parseFuel, List.length_append, h8]
    omega
  have hsadv : advance ⟨(("artist:=").data) ++ X, []⟩ = ⟨(("artist:=").data) ++ X, []⟩ := rfl
  have hne : ((("artist:=").data) ++ X ≠ []) := by
    show ('a' :: _) ≠ []
    simp
  have hniladv : advance ⟨([] : List Char), ([] : List Char)⟩ = ⟨[], []⟩ := rfl
  have hterm2 : parseSearchTermF ops ⟨(("artist:=").data) ++ X, []⟩ =
      (ops.mkTerm (("artist").data) ['='] (toLowerStr X), ⟨[], []⟩) := by
    simp only [parseSearchTermF, termLoop_artist_eq X hX]
  have hsexpr : pSexpr ops (f0 + 1) ⟨(("artist:=").data) ++ X, []⟩ =
      some (ops.mkTerm (("artist").data) ['='] (toLowerStr X), ⟨[], []⟩) := by
    have h0 : pSexpr ops (f0 + 1) ⟨(("artist:=").data) ++ X, []⟩ =
        some (parseSearchTermF ops ⟨(("artist:=").data) ++ X, []⟩) := rfl
    rw [h0, hterm2]
  have handloop : pAndLoop ops (f0 + 1 + 1) [] ⟨(("artist:=").data) ++ X, []⟩ =
      some (ops.mkAnd [ops.mkTerm (("artist").data) ['='] (toLowerStr X)], ⟨[], []⟩) := by
    simp only [pAndLoop, hsexpr]
    simp [advance, checkOr, checkAnd]
  have handgroup : pAndGroup ops (f0 + 1 + 1 + 1) ⟨(("artist:=").data) ++ X, []⟩ =
      some (ops.mkAnd [ops.mkTerm (("artist").data) ['='] (toLowerStr X)], ⟨[], []⟩) := by
    simp only [pAndGroup, hsadv]
    rw [if_neg hne]
    exact handloop
  have horloop : pOrLoop ops (f0 + 1 + 1 + 1)
      [ops.mkAnd [ops.mkTerm (("artist").data) ['='] (toLowerStr X)]] ⟨[], []⟩ =
      some (ops.mkOr [ops.mkAnd [ops.mkTerm (("artist").data) ['='] (toLowerStr X)]],
        ⟨[], []⟩) := by
    simp [pOrLoop, checkOr]
  simp only [runParse, hF, pOrGroup, hsadv]
  rw [if_neg hne]
  simp only [handgroup, hniladv, horloop, Option.map]

end ClaimSupport

/-- Claim C1, as stated, is false on the collection path: the parser
lower-cases the operand of `artist:=Queen` to `queen`, but the
collection evaluator hands `FilterParserEqComparator` the raw field
text, so a song whose artist is `Queen` — equal to the operand
ignoring case — does not match. -/
theorem C1_eq_case_insensitive_counterexample :
    toLowerStr queenSong.artist = toLowerStr (("Queen").data) ∧
      acceptSong (collectionParseT (("artist:=Queen").data)) queenSong = false := by
  constructor
  · rfl
  · rfl

/-- Claim C1 amended: the Eq and Ne comparators built by the parser
test exact text equality of the lower-cased operand against the
element text.  The playlist evaluator lower-cases the element first, so
there the match is case-insensitive (`lower(operand) = lower(field)`);
the collection evaluator passes the raw field text, so there the match
is case-sensitive against the lower-cased operand.  The parse-level
statements hold for every operand `X` made of plain characters. -/
theorem C1_eq_comparator_semantics (X : List Char) (hX : X ≠ [])
    (hplain : ∀ c ∈ X, plainChar c) (song : Song) (row : PRow) :
    (acceptSong (createSearchTermTreeNodeC (("artist").data) ['='] (toLowerStr X)) song = true ↔
      toLowerStr X = song.artist) ∧
    (acceptSong (createSearchTermTreeNodeC (("artist").data) ('!' :: ['=']) (toLowerStr X)) song
        = true ↔ toLowerStr X ≠ song.artist) ∧
    (acceptRow (createSearchTermTreeNodeP playCfg (("artist").data) ['='] (toLowerStr X)) row
        = true ↔ toLowerStr X = toLowerStr (row 2)) ∧
    (acceptRow (createSearchTermTreeNodeP playCfg (("artist").data) ('!' :: ['=']) (toLowerStr X))
        row = true ↔ toLowerStr X ≠ toLowerStr (row 2)) ∧
    (acceptSong (collectionParseT ((("artist:=").data) ++ X)) song = true ↔
      toLowerStr X = song.artist) ∧
    (acceptRow (playlistParseT playCfg ((("artist:=").data) ++ X)) row = true ↔
      toLowerStr X = toLowerStr (row 2)) := by
  have hXl : toLowerStr X ≠ [] := by
    simp only [toLowerStr, ne_eq, List.map_eq_nil_iff]
    exact hX
  have hpC : collectionParse ((("artist:=").data) ++ X) =
      some (CTree.orF [CTree.andF
        [createSearchTermTreeNodeC (("artist").data) ['='] (toLowerStr X)]]) :=
    runParse_artist_eq collectionOps X hplain
  have hpP : playlistParse playCfg ((("artist:=").data) ++ X) =
      some (PTree.orF [PTree.andF
        [createSearchTermTreeNodeP playCfg (("artist").data) ['='] (toLowerStr X)]]) :=
    runParse_artist_eq (playlistOps playCfg) X hplain
  have htC : collectionParseT ((("artist:=").data) ++ X) =
      CTree.orF [CTree.andF [CTree.columnTerm (("artist").data) (Cmp.eqCmp (toLowerStr X))]] := by
    rw [collectionParseT, hpC, Option.getD, createC_artist_eq]
  have htP : playlistParseT playCfg ((("artist:=").data) ++ X) =
      PTree.orF [PTree.andF [PTree.columnTerm 2 (Cmp.eqCmp (toLowerStr X))]] := by
    rw [playlistParseT, hpP, Option.getD, createP_artist_eq]
  refine ⟨?_, ?_, ?_, ?_, ?_, ?_⟩
  · rw [createC_artist_eq, accept_artist_col]
    simp [cmpMatches]
  · rw [createC_artist_ne _ hXl, accept_artist_col]
    simp [cmpMatches]
  · rw [createP_artist_eq]
    show cmpMatches (Cmp.eqCmp (toLowerStr X)) (toLowerStr (row 2)) = true ↔ _
    simp [cmpMatches]
  · rw [createP_artist_ne _ hXl]
    show cmpMatches (Cmp.neCmp (toLowerStr X)) (toLowerStr (row 2)) = true ↔ _
    simp [cmpMatches]
  · rw [htC, accept_single]
    have hdf : DataFromField (("artist").data) song = song.artist := by
      simp [DataFromField]
    rw [hdf]
    simp [cmpMatches]
  · rw [htP, accept_singleRow]
    simp [cmpMatches]

/-- Concrete instance of `C1_eq_comparator_semantics` at the operand
`Queen`, an all-empty model row and the `Queen` song. -/
theorem C1_eq_comparator_semantics_witness :
    (("Queen").data : List Char) ≠ [] ∧
      (acceptSong (createSearchTermTreeNodeC (("artist").data) ['=']
        (toLowerStr (("Queen").data))) queenSong = true ↔
          toLowerStr (("Queen").data) = queenSong.artist) := by
  refine ⟨by decide, ?_⟩
  exact (C1_eq_comparator_semantics (("Queen").data) (by decide) (by decide) queenSong
    (fun _ => [])).1

/-- Claim C2, as stated, is false at the input `a OR`: the two
characters of the trailing bare `OR` are consumed into the parser's
carry buffer by `checkOr`, and `parseOrGroup`'s buffered `checkOr`
check recognizes the buffer content `OR` as the keyword with no look at
a following character, so an accept-all (`Nop`) or-branch is appended
and the filter matches a song no field of which contains `a`. -/
theorem C2_trailing_or_counterexample :
    collectionParseT (("a OR").data) =
      CTree.orF [CTree.andF [CTree.term (Cmp.defaultCmp (("a").data)) kSearchColumns],
        CTree.nop] ∧
    acceptSong (collectionParseT (("a OR").data)) emptySong = true ∧
    acceptSong (collectionParseT (("a").data)) emptySong = false := by
  exact ⟨rfl, rfl, rfl⟩

/-- Claim C2 amended: `AND`/`OR` are keywords when they appear as bare
uppercase tokens followed by whitespace, '-' or '('; lowercase forms
and uppercase runs followed by other text are ordinary search text.
The exception is a bare `OR` at end of input after at least one term:
its characters are held in the carry buffer, the buffered keyword check
recognizes them without requiring a following character, and the
or-group gains an accept-all branch, so the whole filter matches every
record. -/
theorem C2_keyword_recognition :
    collectionParseT (("a or b").data) =
      CTree.orF [CTree.andF
        [CTree.term (Cmp.defaultCmp (("a").data)) kSearchColumns,
         CTree.term (Cmp.defaultCmp (("or").data)) kSearchColumns,
         CTree.term (Cmp.defaultCmp (("b").data)) kSearchColumns]] ∧
    collectionParseT (("a OR b").data) =
      CTree.orF [CTree.andF [CTree.term (Cmp.defaultCmp (("a").data)) kSearchColumns],
        CTree.andF [CTree.term (Cmp.defaultCmp (("b").data)) kSearchColumns]] ∧
    collectionParseT (("x AND y").data) =
      CTree.orF [CTree.andF
        [CTree.term (Cmp.defaultCmp (("x").data)) kSearchColumns,
         CTree.term (Cmp.defaultCmp (("y").data)) kSearchColumns]] ∧
    collectionParseT (("x ANDy").data) =
      CTree.orF [CTree.andF
        [CTree.term (Cmp.defaultCmp (("x").data)) kSearchColumns,
         CTree.term (Cmp.defaultCmp (("andy").data)) kSearchColumns]] ∧
    collectionParseT (("a OR").data) =
      CTree.orF [CTree.andF [CTree.term (Cmp.defaultCmp (("a").data)) kSearchColumns],
        CTree.nop] ∧
    ∀ song : Song, acceptSong (collectionParseT (("a OR").data)) song = true := by
  refine ⟨rfl, rfl, rfl, rfl, rfl, ?_⟩
  intro song
  simp [acceptSong, anyAccept, anyRejects]

/-- Claim C3: the recursive-descent parse is total — for every input
string (malformed fragments included) both the collection and the
playlist parser terminate with an expression tree and never fail. -/
theorem C3_parse_total (s : List Char) (cfg : PlaylistConfig) :
    (∃ t, collectionParse s = some t) ∧ ∃ t, playlistParse cfg s = some t :=
  ⟨runParse_total collectionOps s, runParse_total (playlistOps cfg) s⟩

/-- Claim C4: on the nanosecond-valued `length` column, the tree parsed
from `length:>200` matches every song of 201 seconds (the DropTail
decorator strips the last 9 digits of `201000000000` before the
integer comparison) and no song of 199 seconds. -/
theorem C4_duration_gt (song : Song) :
    (song.length_nanosec = 201000000000 →
      acceptSong (collectionParseT (("length:>200").data)) song = true) ∧
    (song.length_nanosec = 199000000000 →
      acceptSong (collectionParseT (("length:>200").data)) song = false) := by
  have htree : collectionParseT (("length:>200").data) =
      CTree.orF [CTree.andF [CTree.columnTerm (("length").data)
        (Cmp.dropTail (Cmp.gtCmp 200))]] := rfl
  have hdf : DataFromField (("length").data) song = intToStr song.length_nanosec := by
    simp [DataFromField]
  constructor <;> intro h <;>
    rw [htree, accept_single, hdf, h] <;> decide

/-- Concrete instance of `C4_duration_gt` at songs of 201 and 199
seconds. -/
theorem C4_duration_gt_witness :
    acceptSong (collectionParseT (("length:>200").data)) (songWithLength 201000000000) = true ∧
    acceptSong (collectionParseT (("length:>200").data)) (songWithLength 199000000000) = false :=
  ⟨(C4_duration_gt (songWithLength 201000000000)).1 rfl,
   (C4_duration_gt (songWithLength 199000000000)).2 rfl⟩

/-- Claim C5: in both parsers, a term whose search text is empty and
whose prefix is not `=` produces the unconditional-match `Nop` node,
which accepts every record. -/
theorem C5_empty_search_vacuous (column pre : List Char) (h : pre ≠ ['=']) :
    createSearchTermTreeNodeC column pre [] = CTree.nop ∧
    (∀ cfg : PlaylistConfig, createSearchTermTreeNodeP cfg column pre [] = PTree.nop) ∧
    (∀ song : Song, acceptSong (createSearchTermTreeNodeC column pre []) song = true) ∧
    (∀ (cfg : PlaylistConfig) (row : PRow),
      acceptRow (createSearchTermTreeNodeP cfg column pre []) row = true) := by
  have hc : createSearchTermTreeNodeC column pre [] = CTree.nop := by
    simp [createSearchTermTreeNodeC, h]
  have hp : ∀ cfg : PlaylistConfig, createSearchTermTreeNodeP cfg column pre [] = PTree.nop := by
    intro cfg
    simp [createSearchTermTreeNodeP, h]
  refine ⟨hc, hp, ?_, ?_⟩
  · intro song
    rw [hc]
    rfl
  · intro cfg row
    rw [hp cfg]
    rfl

/-- Concrete instance of `C5_empty_search_vacuous` at column `artist`
and prefix `>`. -/
theorem C5_empty_search_vacuous_witness :
    createSearchTermTreeNodeC (("artist").data) ['>'] [] = CTree.nop ∧
      createSearchTermTreeNodeP playCfg (("artist").data) ['>'] [] = PTree.nop :=
  ⟨(C5_empty_search_vacuous (("artist").data) ['>'] (by decide)).1,
   (C5_empty_search_vacuous (("artist").data) ['>'] (by decide)).2.1 playCfg⟩

/-- Claim C6: every `ColumnTerm` node either parser constructs holds a
column drawn from its registry (`Song::kSearchColumns`, respectively
the playlist column map), every `Term` node holds exactly the default
field set, the collection default set is non-empty, and the playlist
default set is non-empty whenever the registry is. -/
theorem C6_node_invariant :
    (∀ s t, collectionParse s = some t → cNodeOk t = true) ∧
    kSearchColumns ≠ [] ∧
    (∀ (cfg : PlaylistConfig) s t, playlistParse cfg s = some t → pNodeOk cfg t = true) ∧
    (∀ cfg : PlaylistConfig, cfg.columns ≠ [] → cfg.columns.map Prod.snd ≠ []) := by
  refine ⟨?_, by simp [kSearchColumns], ?_, ?_⟩
  · intro s t h
    refine runParse_preserves collectionOps (fun t => cNodeOk t = true) rfl ?_ ?_ ?_ ?_ s t h
    · intro c p s2
      exact createC_ok c p s2
    · intro l hl
      exact cListOk_of_forall l hl
    · intro l hl
      exact cListOk_of_forall l hl
    · intro t2 ht2
      exact ht2
  · intro cfg s t h
    refine runParse_preserves (playlistOps cfg) (fun t => pNodeOk cfg t = true) rfl ?_ ?_ ?_ ?_
      s t h
    · intro c p s2
      exact createP_ok cfg c p s2
    · intro l hl
      exact pListOk_of_forall cfg l hl
    · intro l hl
      exact pListOk_of_forall cfg l hl
    · intro t2 ht2
      exact ht2
  · intro cfg h
    simpa using h

/-- Concrete instance of `C6_node_invariant`: the trees parsed from
`artist:x` (collection) and `a` (playlist) satisfy the invariant, and
the modelled playlist registry has a non-empty value list. -/
theorem C6_node_invariant_witness :
    cNodeOk (CTree.orF [CTree.andF
      [CTree.columnTerm (("artist").data) (Cmp.defaultCmp (("x").data))]]) = true ∧
    pNodeOk playCfg (PTree.orF [PTree.andF
      [PTree.term (Cmp.defaultCmp (("a").data)) (playCfg.columns.map Prod.snd)]]) = true ∧
    playCfg.columns.map Prod.snd ≠ [] :=
  ⟨C6_node_invariant.1 (("artist:x").data) _ rfl,
   C6_node_invariant.2.2.1 playCfg (("a").data) _ rfl,
   C6_node_invariant.2.2.2 playCfg (by decide)⟩

/-- Claim C7: the 0-ary `And` accepts every record and the 0-ary `Or`
rejects every record; in general `And` accepts iff no child rejects and
`Or` accepts iff some child accepts, in both evaluators. -/
theorem C7_bool_identities :
    (∀ song : Song, acceptSong (CTree.andF []) song = true) ∧
    (∀ song : Song, acceptSong (CTree.orF []) song = false) ∧
    (∀ (cs : List CTree) (song : Song),
      acceptSong (CTree.andF cs) song = true ↔ ∀ c ∈ cs, acceptSong c song = true) ∧
    (∀ (cs : List CTree) (song : Song),
      acceptSong (CTree.orF cs) song = true ↔ ∃ c ∈ cs, acceptSong c song = true) ∧
    (∀ row : PRow, acceptRow (PTree.andF []) row = true) ∧
    (∀ row : PRow, acceptRow (PTree.orF []) row = false) ∧
    (∀ (cs : List PTree) (row : PRow),
      acceptRow (PTree.andF cs) row = true ↔ ∀ c ∈ cs, acceptRow c row = true) ∧
    (∀ (cs : List PTree) (row : PRow),
      acceptRow (PTree.orF cs) row = true ↔ ∃ c ∈ cs, acceptRow c row = true) := by
  refine ⟨fun song => rfl, fun song => rfl, ?_, ?_, fun row => rfl, fun row => rfl, ?_, ?_⟩
  · intro cs song
    rw [show acceptSong (CTree.andF cs) song = !(anyRejects cs song) from rfl]
    rw [← anyRejects_false_iff]
    cases anyRejects cs song <;> simp
  · intro cs song
    rw [show acceptSong (CTree.orF cs) song = anyAccept cs song from rfl]
    exact anyAccept_iff cs song
  · intro cs row
    rw [show acceptRow (PTree.andF cs) row = !(anyRejectsRow cs row) from rfl]
    rw [← anyRejectsRow_false_iff]
    cases anyRejectsRow cs row <;> simp
  · intro cs row
    rw [show acceptRow (PTree.orF cs) row = anyAcceptRow cs row from rfl]
    exact anyAcceptRow_iff cs row

/-- Claim C8: parsing the empty string yields the `Nop` tree, whose
`accept` is true for every record. -/
theorem C8_empty_string_matches_all :
    collectionParse [] = some CTree.nop ∧
      ∀ song : Song, acceptSong (collectionParseT []) song = true := by
  exact ⟨rfl, fun song => rfl⟩

/-- Claim C9: on each evaluation the cache adapter reuses the stored
tree unchanged when the incoming filter string's hash equals the stored
hash, and otherwise parses the string and replaces both the stored hash
and the stored tree; the row is then evaluated against the resulting
tree. -/
theorem C9_cache_reuse (qhash : List Char → Nat) (st : CacheState) (fs : List Char)
    (song : Song) :
    cacheStep qhash st fs =
      (if qhash fs = st.query_hash then st else ⟨qhash fs, collectionParseT fs⟩) ∧
    filterAcceptsRowModel qhash st fs song =
      (if qhash fs = st.query_hash then (st, acceptSong st.filter_tree song)
       else (⟨qhash fs, collectionParseT fs⟩, acceptSong (collectionParseT fs) song)) := by
  by_cases h : qhash fs = st.query_hash <;>
    simp [cacheStep, filterAcceptsRowModel, h]

/-- Claim C10: when the sub-expression after a negation `-` parses to
the accept-all `Nop` node, the negation is dropped rather than applied:
a lone `-`, or `-` in front of a stray `)`, still yields a tree that
matches every record in both parsers. -/
theorem C10_negation_of_nop_dropped :
    collectionParseT (("-").data) = CTree.orF [CTree.andF [CTree.nop]] ∧
    collectionParseT (("-)").data) = CTree.orF [CTree.andF [CTree.nop]] ∧
    (∀ song : Song, acceptSong (collectionParseT (("-").data)) song = true) ∧
    (∀ cfg : PlaylistConfig, playlistParseT cfg (("-").data) =
      PTree.orF [PTree.andF [PTree.nop]]) ∧
    (∀ (cfg : PlaylistConfig) (row : PRow),
      acceptRow (playlistParseT cfg (("-").data)) row = true) := by
  refine ⟨rfl, rfl, fun song => rfl, fun cfg => rfl, fun cfg row => rfl⟩

end StrawberryFilter
